import Mathlib

/-!
Verification of the `beat-detector` crate against its natural-language
specification.

The development shallowly embeds the Rust sources in Lean 4:

* `f32` sample values, times and filter coefficients are modelled as exact
  rationals (`ℚ`); `libm::roundf` becomes `roundQ` (round half away from
  zero).  Concrete counterexample inputs are chosen as dyadic rationals with
  comfortable comparison margins so that the idealisation does not change any
  branch taken by the floating-point program.
* Rust panics (failed `assert!`, out-of-bounds indexing, arithmetic underflow
  that is guaranteed to trip a later assert) are modelled by `Option`-valued
  functions returning `none`; `debug_assert!` calls, which are compiled out of
  release builds, are not modelled.
* stateful structs become explicit state-passing functions.

Sources embedded: `src/audio_history.rs`, `src/util/audio_ring_buffer.rs`,
`src/peak/zero_of_function_iterator.rs`, `src/peak/local_min_max_iterator.rs`,
`src/peak/peak_detector.rs`, `src/peak/mod.rs`, `src/envelope_detector.rs`,
`src/band_analyzer.rs`, `src/beat_detector.rs`.  The repository snapshot holds
two slightly different persisted variants of the `Peak` type; following the
call sites in `peak_detector.rs` and `envelope_detector.rs`, `Peak` is taken
with the four fields `relative_time`, `sample_index`, `value`, `peak_number`
(the flattened `InternalPeak` of `peak/mod.rs`, whose constructor rounds time
and value to three decimal places).
-/

set_option maxRecDepth 4000000

attribute [local semireducible] Rat.add Rat.mul Rat.inv Rat.sub

namespace BeatDetection

/-- Embedding of `libm::roundf`: round half away from zero. -/
def roundQ (q : ℚ) : ℤ :=
  if 0 ≤ q then Rat.floor (q + 1/2) else - Rat.floor (1/2 - q)

/-- Embedding of `libm::roundf(x * 1000.0) / 1000.0`, the rounding to three
decimal places used throughout the crate. -/
def roundTo3 (q : ℚ) : ℚ := (roundQ (q * 1000) : ℚ) / 1000

/-- State of `AudioHistoryMeta` from `src/audio_history.rs`. -/
structure AudioHistoryMeta where
  buffer_capacity : ℕ
  sampling_rate : ℚ
  time_per_sample : ℚ
  total_relative_time : ℚ
  amount_new_samples_on_latest_update : ℕ
  amount_total_consumed_samples : ℕ
  amount_outfaded_elements : ℕ
deriving DecidableEq

namespace AudioHistoryMeta

/-- `AudioHistoryMeta::new` from `src/audio_history.rs`. -/
def new (buffer_capacity : ℕ) (sampling_rate : ℚ) : AudioHistoryMeta where
  buffer_capacity := buffer_capacity
  sampling_rate := sampling_rate
  time_per_sample := 1 / sampling_rate
  total_relative_time := 0
  amount_new_samples_on_latest_update := 0
  amount_total_consumed_samples := 0
  amount_outfaded_elements := 0

/-- `AudioHistoryMeta::len` from `src/audio_history.rs`: the smaller of the
total consumed count and the capacity. -/
def len (m : AudioHistoryMeta) : ℕ :=
  if m.amount_total_consumed_samples < m.buffer_capacity then
    m.amount_total_consumed_samples
  else
    m.buffer_capacity

/-- `AudioHistoryMeta::update` from `src/audio_history.rs`, parameterised by
the length of the incoming sample slice (the only datum it reads from it). -/
def update (m : AudioHistoryMeta) (n : ℕ) : AudioHistoryMeta :=
  let old_len := m.len
  let total := m.amount_total_consumed_samples + n
  { m with
    amount_new_samples_on_latest_update := n
    amount_total_consumed_samples := total
    total_relative_time := (total : ℚ) * m.time_per_sample
    amount_outfaded_elements :=
      if old_len + n ≤ m.buffer_capacity then 0
      else if old_len ≤ m.buffer_capacity ∧ m.buffer_capacity < old_len + n then
        old_len + n - m.buffer_capacity
      else n }

/-- `AudioHistoryMeta::calc_index_after_update` from `src/audio_history.rs`.
The outer `Option` is the panic monad (the `assert!(index < self.len())`);
the inner `Option` is the function's own return value, `none` meaning the
index faded out of the buffer. -/
def calc_index_after_update (m : AudioHistoryMeta) (index : ℕ) :
    Option (Option ℕ) :=
  if index < m.amount_outfaded_elements then some none
  else
    let i := index - m.amount_outfaded_elements
    if i < m.len then some (some i) else none

/-- `AudioHistoryMeta::time_of_sample` from `src/audio_history.rs`.  `none`
models the panics: the two explicit asserts, the `usize` underflow of
`self.len() - index - 1` for an index at or beyond the current length (which
aborts in debug builds and trips the final `time > 0` assert in release
builds), and the final `assert!(time > 0.0)`. -/
def time_of_sample (m : AudioHistoryMeta) (index : ℕ) : Option ℚ :=
  if index < m.buffer_capacity then
    if 0 < m.amount_total_consumed_samples then
      if index < m.len then
        let times : ℚ := ((m.len - index - 1 : ℕ) : ℚ)
        let time := m.total_relative_time - m.time_per_sample * times
        if 0 < time then some time else none
      else none
    else none
  else none

/-- Cumulative number of samples that have ever been evicted from the window:
total consumed minus currently held. -/
def cumEvict (m : AudioHistoryMeta) : ℕ :=
  m.amount_total_consumed_samples - m.len

end AudioHistoryMeta

/-- Range-violation condition of `BeatDetector::assert_new_audio_data` from
`src/beat_detector.rs`: the closure `|x| *x > 1.0 && *x < -1.0` applied via
`iter().any`.  The assert in the source is `assert!(!any, ...)`. -/
def rangeViolationCheck (new_audio_data : List ℚ) : Bool :=
  new_audio_data.any fun x => decide ((1 : ℚ) < x) && decide (x < (-1 : ℚ))

/-- `BeatDetector::assert_new_audio_data` from `src/beat_detector.rs`.
Returns `none` on abort (the value-range assert, checked only when
`assert_values_done` is still unset) and otherwise `some b` where `b` records
whether one of the advisory chunk-size warnings was logged. -/
def assert_new_audio_data (first_call : Bool) (time_per_sample : ℚ)
    (new_audio_data : List ℚ) : Option Bool :=
  if first_call && rangeViolationCheck new_audio_data then none
  else
    some (decide (new_audio_data.length < 50) ||
      decide ((1 : ℚ)/10 < (new_audio_data.length : ℚ) * time_per_sample))

section SampleHistoryClaims

open AudioHistoryMeta

/-- Helper: `len` is monotone under `update` and bounded by capacity. -/
theorem len_le_capacity (m : AudioHistoryMeta) : m.len ≤ m.buffer_capacity := by
  unfold AudioHistoryMeta.len
  split <;> omega

/-- Closed form of `len`. -/
theorem len_eq_min (m : AudioHistoryMeta) :
    m.len = min m.amount_total_consumed_samples m.buffer_capacity := by
  unfold AudioHistoryMeta.len
  split <;> omega

/-- Unfolding lemma for the eviction count set by `update`. -/
theorem update_outfaded (m : AudioHistoryMeta) (n : ℕ) :
    (m.update n).amount_outfaded_elements =
      if m.len + n ≤ m.buffer_capacity then 0
      else if m.len ≤ m.buffer_capacity ∧ m.buffer_capacity < m.len + n then
        m.len + n - m.buffer_capacity
      else n := rfl

/-- Unfolding lemma for the total-consumed count set by `update`. -/
theorem update_total (m : AudioHistoryMeta) (n : ℕ) :
    (m.update n).amount_total_consumed_samples =
      m.amount_total_consumed_samples + n := rfl

/-- The capacity is unchanged by `update`. -/
theorem update_capacity (m : AudioHistoryMeta) (n : ℕ) :
    (m.update n).buffer_capacity = m.buffer_capacity := rfl

/-- The time-per-sample is unchanged by `update`. -/
theorem update_tps (m : AudioHistoryMeta) (n : ℕ) :
    (m.update n).time_per_sample = m.time_per_sample := rfl

/-- Unfolding lemma for `calc_index_after_update`. -/
theorem calc_index_eq (m : AudioHistoryMeta) (index : ℕ) :
    m.calc_index_after_update index =
      if index < m.amount_outfaded_elements then some none
      else if index - m.amount_outfaded_elements < m.len then
        some (some (index - m.amount_outfaded_elements))
      else none := rfl

/-- C3: after any `update`, the eviction count follows the three-case rule —
(a) buffer not yet full after the update: `0` evicted; (b) buffer transitions
from not-full to full within the update: `old_len + new_len − capacity`
evicted; (c) buffer already full before the update: `new_len` evicted — and
`calc_index_after_update` sends every index of a sample present before the
update to `none` (gone) exactly when it is below the eviction count, and
otherwise to `index − evicted`, which is always below the new length. -/
theorem claim_C3 (m : AudioHistoryMeta) (n : ℕ) :
    ((m.update n).len < m.buffer_capacity →
        (m.update n).amount_outfaded_elements = 0) ∧
    (m.len < m.buffer_capacity → (m.update n).len = m.buffer_capacity →
        (m.update n).amount_outfaded_elements =
          m.len + n - m.buffer_capacity) ∧
    (m.len = m.buffer_capacity →
        (m.update n).amount_outfaded_elements = n) ∧
    (∀ index : ℕ, index < m.len →
      ((index < (m.update n).amount_outfaded_elements →
          (m.update n).calc_index_after_update index = some none) ∧
       ((m.update n).amount_outfaded_elements ≤ index →
          (m.update n).calc_index_after_update index =
            some (some (index - (m.update n).amount_outfaded_elements)) ∧
          index - (m.update n).amount_outfaded_elements < (m.update n).len))) := by
  have hcap := len_le_capacity m
  refine ⟨?_, ?_, ?_, fun index hidx => ⟨?_, fun h => ⟨?_, ?_⟩⟩⟩ <;>
    simp only [calc_index_eq, update_outfaded, len_eq_min, update_total,
      update_capacity] at * <;>
    [skip; skip; skip; intro h; skip; skip] <;>
    split_ifs at * <;> first | rfl | omega

/-- Witness for C3: a buffer of capacity 4 holding 3 samples receives 2 more;
the update evicts exactly one element, index 0 is gone and index 2 becomes
index 1, below the new length. -/
theorem claim_C3_witness :
    (((AudioHistoryMeta.new 4 1).update 3).len < 4 ∧
      (((AudioHistoryMeta.new 4 1).update 3).update 2).len = 4 ∧
      (((AudioHistoryMeta.new 4 1).update 3).update 2).amount_outfaded_elements
        = 3 + 2 - 4) ∧
    ((((AudioHistoryMeta.new 4 1).update 3).update 2).calc_index_after_update 0
        = some none ∧
      (((AudioHistoryMeta.new 4 1).update 3).update 2).calc_index_after_update 2
        = some (some 1) ∧
      2 - (((AudioHistoryMeta.new 4 1).update 3).update 2).amount_outfaded_elements
        < (((AudioHistoryMeta.new 4 1).update 3).update 2).len) := by
  have h := claim_C3 ((AudioHistoryMeta.new 4 1).update 3) 2
  refine ⟨⟨by decide, by decide, h.2.1 (by decide) (by decide)⟩, ?_, ?_, ?_⟩
  · exact (h.2.2.2 0 (by decide)).1 (by decide)
  · have h2 := (h.2.2.2 2 (by decide)).2 (by decide)
    exact h2.1
  · exact ((h.2.2.2 2 (by decide)).2 (by decide)).2

/-- The range-check closure `|x| *x > 1.0 && *x < -1.0` is unsatisfiable,
so `iter().any` over it is false on every chunk. -/
theorem rangeViolationCheck_eq_false (chunk : List ℚ) :
    rangeViolationCheck chunk = false := by
  unfold rangeViolationCheck
  rw [List.any_eq_false]
  intro x _
  simp only [Bool.and_eq_true, decide_eq_true_eq, not_and]
  intro h1 h2
  linarith

/-- Consequently `assert_new_audio_data` never aborts, for any chunk and any
call. -/
theorem assert_new_audio_data_ne_none (first_call : Bool)
    (time_per_sample : ℚ) (chunk : List ℚ) :
    assert_new_audio_data first_call time_per_sample chunk ≠ none := by
  unfold assert_new_audio_data
  rw [rangeViolationCheck_eq_false]
  simp

/-- C6 (code behaviour): the value-range assert of
`BeatDetector::assert_new_audio_data` can never fire: its condition
`*x > 1.0 && *x < -1.0` is unsatisfiable, so every chunk — including one with
samples far outside `[-1, 1]` — passes validation and is processed as if it
were valid, contradicting the documented fatal-abort contract (the assert's
own message reads "all samples must be in range [-1; 1]"). -/
theorem claim_C6 (first_call : Bool) (time_per_sample : ℚ)
    (chunk : List ℚ) :
    rangeViolationCheck chunk = false ∧
    assert_new_audio_data first_call time_per_sample chunk ≠ none :=
  ⟨rangeViolationCheck_eq_false chunk,
    assert_new_audio_data_ne_none first_call time_per_sample chunk⟩

end SampleHistoryClaims

/-- State of `RingBufferWithSerialSliceAccess` from
`src/util/audio_ring_buffer.rs`.  The Rust const parameter `BUF_LEN` is the
`capacity` field; both inline arrays become lists whose length is maintained
at `capacity`. -/
structure RingBufferWithSerialSliceAccess (T : Type) where
  capacity : ℕ
  buffer : List T
  continuous_slice_buffer : List T
  continuous_slice_buffer_valid : Bool
  write_index : ℕ
  len : ℕ
deriving DecidableEq

namespace RingBufferWithSerialSliceAccess

variable {T : Type}

/-- `RingBufferWithSerialSliceAccess::new`: both arrays filled with the
default value, `write_index = len = 0`, cached slice marked valid. -/
def new (N : ℕ) (default : T) : RingBufferWithSerialSliceAccess T where
  capacity := N
  buffer := List.replicate N default
  continuous_slice_buffer := List.replicate N default
  continuous_slice_buffer_valid := true
  write_index := 0
  len := 0

/-- `RingBufferWithSerialSliceAccess::push`.  `buffer[write_index] = item`
is in bounds whenever `write_index < capacity`, which holds for every state
reachable from `new` with a positive capacity. -/
def push (s : RingBufferWithSerialSliceAccess T) (item : T) :
    RingBufferWithSerialSliceAccess T :=
  { s with
    buffer := s.buffer.set s.write_index item
    continuous_slice_buffer_valid := false
    write_index := (s.write_index + 1) % s.capacity
    len := if s.len < s.capacity then s.len + 1 else s.len }

/-- `RingBufferWithSerialSliceAccess::extend_from_slice`: repeated push. -/
def extend_from_slice (s : RingBufferWithSerialSliceAccess T)
    (new_data : List T) : RingBufferWithSerialSliceAccess T :=
  new_data.foldl push s

/-- `RingBufferWithSerialSliceAccess::clear`: logical reset that keeps the
storage. -/
def clear (s : RingBufferWithSerialSliceAccess T) :
    RingBufferWithSerialSliceAccess T :=
  { s with write_index := 0, continuous_slice_buffer_valid := false, len := 0 }

/-- `RingBufferWithSerialSliceAccess::prepare_continuous_slice`: if the cache
is stale, rebuild it by copying `buffer[write_index..]` to the front and
`buffer[..write_index]` behind it (the two `for_each` copy loops). -/
def prepare_continuous_slice (s : RingBufferWithSerialSliceAccess T) :
    RingBufferWithSerialSliceAccess T :=
  if s.continuous_slice_buffer_valid then s
  else
    { s with
      continuous_slice_buffer :=
        s.buffer.drop s.write_index ++ s.buffer.take s.write_index
      continuous_slice_buffer_valid := true }

/-- `RingBufferWithSerialSliceAccess::continuous_slice`: zero-copy path when
the write cursor sits exactly at the wrap boundary, otherwise the rebuilt
cache; in both cases the window `[capacity - len ..][.. len]` is returned.
The mutated state is returned alongside the slice. -/
def continuous_slice (s : RingBufferWithSerialSliceAccess T) :
    List T × RingBufferWithSerialSliceAccess T :=
  if s.write_index = 0 then
    ((s.buffer.drop (s.capacity - s.len)).take s.len, s)
  else
    (((prepare_continuous_slice s).continuous_slice_buffer.drop
        (s.capacity - s.len)).take s.len, prepare_continuous_slice s)

end RingBufferWithSerialSliceAccess

section RingBufferClaims

open RingBufferWithSerialSliceAccess

variable {T : Type}

/-- Helper: `getElem` only depends on the index value. -/
theorem getElem_congr_index (l : List T) {a b : ℕ} (h : a = b)
    (ha : a < l.length) (hb : b < l.length) :
    l.get ⟨a, ha⟩ = l.get ⟨b, hb⟩ := by
  subst h
  rfl

/-- Value-level helper: `getD` after `set` at the written position. -/
theorem getD_set_self' (l : List T) (i : ℕ) (a d : T) (h : i < l.length) :
    (l.set i a).getD i d = a := by
  simp [List.getD_eq_getElem?_getD, List.getElem?_set_self h]

/-- Value-level helper: `getD` after `set` away from the written position. -/
theorem getD_set_ne' (l : List T) (i j : ℕ) (a d : T) (h : i ≠ j) :
    (l.set i a).getD j d = l.getD j d := by
  simp [List.getD_eq_getElem?_getD, List.getElem?_set_ne h]

/-- Value-level helper: `getD` of an append, left part. -/
theorem getD_append_left' (l₁ l₂ : List T) (n : ℕ) (d : T)
    (h : n < l₁.length) : (l₁ ++ l₂).getD n d = l₁.getD n d := by
  simp [List.getD_eq_getElem?_getD, List.getElem?_append_left h]

/-- Value-level helper: `getD` of a concatenation at the old length. -/
theorem getD_concat_self' (l : List T) (a d : T) :
    (l ++ [a]).getD l.length d = a := by
  simp [List.getD_eq_getElem?_getD, List.getElem?_concat_length]

/-- Invariant tying a ring-buffer state to the list `hist` of all elements
pushed into it since construction (or since the last `clear`): the length and
cursor follow the push count, a valid cache implies the cursor is at the wrap
boundary, and slot `(pushes - len + j) mod capacity` holds the `j`-th youngest
retained element. -/
def RingInv (dflt : T) (hist : List T)
    (s : RingBufferWithSerialSliceAccess T) : Prop :=
  s.buffer.length = s.capacity ∧
  s.len = min hist.length s.capacity ∧
  s.write_index = hist.length % s.capacity ∧
  (s.continuous_slice_buffer_valid = true → s.write_index = 0) ∧
  ∀ j, j < s.len →
    s.buffer.getD ((hist.length - s.len + j) % s.capacity) dflt =
      hist.getD (hist.length - s.len + j) dflt

/-- The fresh buffer satisfies the invariant with empty history. -/
theorem ringInv_new (N : ℕ) (dflt : T) : RingInv dflt [] (new N dflt) := by
  refine ⟨by simp [new], by simp [new], by simp [new], fun _ => rfl, ?_⟩
  intro j hj
  simp [new] at hj

/-- A cleared buffer satisfies the invariant with empty history. -/
theorem ringInv_clear (dflt : T)
    (s : RingBufferWithSerialSliceAccess T) (hb : s.buffer.length = s.capacity) :
    RingInv dflt [] s.clear := by
  refine ⟨hb, by simp [clear], by simp [clear], by simp [clear], ?_⟩
  intro j hj
  simp [clear] at hj

/-- `push` preserves the invariant, extending the history by one element. -/
theorem ringInv_push (dflt x : T) (hist : List T)
    (s : RingBufferWithSerialSliceAccess T) (hN : 0 < s.capacity)
    (h : RingInv dflt hist s) : RingInv dflt (hist ++ [x]) (s.push x) := by
  obtain ⟨hbl, hlen, hwi, _hvalid, hD⟩ := h
  set N := s.capacity with hNdef
  set k := hist.length with hk
  have hlen_le : s.len ≤ N := by omega
  refine ⟨by simp [push, hbl], ?_, ?_, by simp [push], ?_⟩
  · simp only [push, List.length_append, List.length_singleton]
    split <;> omega
  · simp only [push, List.length_append, List.length_singleton, hwi]
    rw [Nat.mod_add_mod]
  · intro j hj
    have hlen' : (s.push x).len = min (k + 1) N := by
      simp only [push]
      split <;> omega
    rw [hlen'] at hj
    simp only [push, List.length_append, List.length_singleton]
    have hif : (if s.len < s.capacity then s.len + 1 else s.len) =
        min (k + 1) N := by
      split <;> omega
    rw [hif]
    have hpos_eq : k + 1 - min (k + 1) N + j ≤ k := by omega
    by_cases hje : hist.length + 1 - min (k + 1) N + j = k
    · rw [hje]
      have hwlt : s.write_index < s.buffer.length := by
        rw [hbl, hwi]; exact Nat.mod_lt _ hN
      have hkc : k % s.capacity = s.write_index := by rw [hwi]
      rw [hkc, getD_set_self' _ _ _ _ hwlt, hk, getD_concat_self']
    · have hlt : hist.length + 1 - min (k + 1) N + j < k := by
        rw [← hk] at hje ⊢
        omega
      set pos := hist.length + 1 - min (k + 1) N + j with hpos
      have hne : pos % N ≠ k % N := by
        intro he
        have hdvd : N ∣ k - pos := by
          have : pos ≡ k [MOD N] := he
          exact (Nat.modEq_iff_dvd' (by omega)).mp this
        have hsmall : k - pos < N := by omega
        have := Nat.eq_zero_of_dvd_of_lt hdvd hsmall
        omega
      rw [← hwi] at hne
      have hNc : pos % s.capacity = pos % N := rfl
      rw [getD_set_ne' _ _ _ _ _ (fun he => hne (hNc ▸ he.symm))]
      have hpos_ge : k - s.len ≤ pos := by omega
      have hj' : pos - (k - s.len) < s.len := by omega
      have hDj := hD (pos - (k - s.len)) hj'
      have harith : k - s.len + (pos - (k - s.len)) = pos := by omega
      rw [harith] at hDj
      rw [hDj, getD_append_left']
      omega

/-- `extend_from_slice` preserves the invariant, appending the pushed list to
the history. -/
theorem ringInv_extend (dflt : T) (hist xs : List T)
    (s : RingBufferWithSerialSliceAccess T) (hN : 0 < s.capacity)
    (h : RingInv dflt hist s) :
    RingInv dflt (hist ++ xs) (s.extend_from_slice xs) := by
  induction xs generalizing hist s with
  | nil => simpa [extend_from_slice] using h
  | cons x xs ih =>
    have hstep := ringInv_push dflt x hist s hN h
    have hN' : 0 < (s.push x).capacity := hN
    have := ih (hist ++ [x]) (s.push x) hN' hstep
    simpa [extend_from_slice, List.foldl_cons] using this

/-- The capacity is unchanged by `push` and `extend_from_slice`. -/
theorem capacity_extend (xs : List T) (s : RingBufferWithSerialSliceAccess T) :
    (s.extend_from_slice xs).capacity = s.capacity := by
  induction xs generalizing s with
  | nil => rfl
  | cons x xs ih => simpa [extend_from_slice, List.foldl_cons] using ih (s.push x)

/-- Core content lemma: under the invariant, `continuous_slice` returns the
most recent `min hist.length capacity` pushed elements, oldest first. -/
theorem continuous_slice_of_inv (dflt : T) (hist : List T)
    (s : RingBufferWithSerialSliceAccess T) (hN : 0 < s.capacity)
    (h : RingInv dflt hist s) :
    s.continuous_slice.1 =
      hist.drop (hist.length - min hist.length s.capacity) := by
  obtain ⟨hbl, hlen, hwi, hvalid, hD⟩ := h
  set N := s.capacity with hNdef
  set k := hist.length with hk
  have hlen_le : s.len ≤ N := by omega
  have hlen_le_k : s.len ≤ k := by omega
  -- Element access under the invariant, phrased with getElem
  have key : ∀ j (hj : j < s.len) (hb2 : (k - s.len + j) % N < s.buffer.length)
      (hh2 : k - s.len + j < k),
      s.buffer[(k - s.len + j) % N] = hist[k - s.len + j] := by
    intro j hj hb2 hh2
    have := hD j hj
    rwa [List.getD_eq_getElem?_getD, List.getD_eq_getElem?_getD,
      List.getElem?_eq_getElem hb2, List.getElem?_eq_getElem (hk ▸ hh2),
      Option.getD_some, Option.getD_some] at this
  unfold continuous_slice
  split
  next hwz =>
    -- zero-copy path: k % N = 0
    have hkmod : k % N = 0 := by rw [← hwi, hwz]
    apply List.ext_getElem
    · simp only [List.length_take, List.length_drop, hbl]
      omega
    · intro i h1 h2
      simp only [List.getElem_take, List.getElem_drop]
      have hiL : i < s.len := by
        simp only [List.length_take, List.length_drop, hbl] at h1
        omega
      have hNk : N ∣ k := Nat.dvd_of_mod_eq_zero hkmod
      by_cases hkN : k < N
      · -- then k = 0 and both sides are empty
        have hk0 : k = 0 := by
          rcases hNk with ⟨c, hc⟩
          rcases c with _ | c'
          · omega
          · have : N ≤ N * (c' + 1) := Nat.le_mul_of_pos_right N (by omega)
            omega
        omega
      · have hlenN : s.len = N := by omega
        have hidx : (k - s.len + i) % N = N - s.len + i := by
          have hdvd2 : N ∣ k - N := Nat.dvd_sub' hNk (dvd_refl N)
          rcases hdvd2 with ⟨c, hc⟩
          have heq : k - s.len + i = N * c + (N - s.len + i) := by omega
          rw [heq, Nat.mul_add_mod]
          exact Nat.mod_eq_of_lt (by omega)
        have hb2 : (k - s.len + i) % N < s.buffer.length := by
          rw [hbl]; exact Nat.mod_lt _ hN
        have hh2 : k - s.len + i < k := by omega
        convert key i hiL hb2 hh2 using 2 <;> (try rw [hidx]) <;> omega
  next hwz =>
    have hvfalse : s.continuous_slice_buffer_valid = false := by
      cases hcsv : s.continuous_slice_buffer_valid
      · rfl
      · exact absurd (hvalid hcsv) hwz
    simp only [prepare_continuous_slice, hvfalse, Bool.false_eq_true, if_false]
    apply List.ext_getElem
    · simp only [List.length_take, List.length_drop, List.length_append,
        List.length_take, hbl]
      omega
    · intro i h1 h2
      have hiL : i < s.len := by
        simp only [List.length_take] at h1
        omega
      simp only [List.getElem_take, List.getElem_drop]
      have hwilt : s.write_index < N := by rw [hwi]; exact Nat.mod_lt _ hN
      have hcache : ∀ (m : ℕ), m < N →
          ∀ (hmb : m < (s.buffer.drop s.write_index ++
              s.buffer.take s.write_index).length)
            (hwb : (s.write_index + m) % N < s.buffer.length),
          (s.buffer.drop s.write_index ++ s.buffer.take s.write_index)[m] =
            s.buffer[(s.write_index + m) % N] := by
        intro m hm hmb hwb
        by_cases hsplit : m < N - s.write_index
        · rw [List.getElem_append_left (by simp only [List.length_drop, hbl]; omega)]
          simp only [List.getElem_drop]
          congr 1
          rw [Nat.mod_eq_of_lt (by omega)]
        · rw [List.getElem_append_right (by simp only [List.length_drop, hbl]; omega)]
          simp only [List.getElem_take]
          have hmod : (s.write_index + m) % N = m - (N - s.write_index) := by
            have hrange : s.write_index + m = N + (m - (N - s.write_index)) := by
              omega
            rw [hrange, Nat.add_mod_left]
            exact Nat.mod_eq_of_lt (by omega)
          congr 1
          simp only [List.length_drop, hbl]
          omega
      have hm : N - s.len + i < N := by omega
      have hmb : N - s.len + i <
          (s.buffer.drop s.write_index ++ s.buffer.take s.write_index).length := by
        simp only [List.length_append, List.length_drop, List.length_take, hbl]
        omega
      have hwb : (s.write_index + (N - s.len + i)) % N < s.buffer.length := by
        rw [hbl]; exact Nat.mod_lt _ hN
      have hc := hcache (N - s.len + i) hm hmb hwb
      have hidx2 : (s.write_index + (N - s.len + i)) % N = (k - s.len + i) % N := by
        rw [hwi, Nat.mod_add_mod]
        have heq2 : k + (N - s.len + i) = (k - s.len + i) + N := by omega
        rw [heq2, Nat.add_mod_right]
      have hb2 : (k - s.len + i) % N < s.buffer.length := by
        rw [hbl]; exact Nat.mod_lt _ hN
      have hh2 : k - s.len + i < k := by omega
      have hkey := key i hiL hb2 hh2
      have hh3 : k - s.len + i < hist.length := by omega
      have hfin : (s.buffer.drop s.write_index ++
          s.buffer.take s.write_index)[N - s.len + i] =
          hist[k - s.len + i] := by
        rw [hc, ← hkey]
        exact getElem_congr_index _ hidx2 hwb hb2
      convert hfin using 2 <;> omega

/-- C9: for every sequence of pushes into the fixed-capacity circular buffer,
`continuous_slice` (the linearization) returns exactly the most recent
`min (pushes, capacity)` pushed elements in oldest-to-newest order with the
newest element at the highest index — the result is precisely the
corresponding suffix of the push sequence, on the zero-copy path (write
cursor at the wrap boundary) as well as on the copying path. -/
theorem claim_C9 (N : ℕ) (hN : 0 < N) (dflt : T) (xs : List T) :
    ((new N dflt).extend_from_slice xs).continuous_slice.1 =
      xs.drop (xs.length - min xs.length N) := by
  have hinv := ringInv_extend dflt [] xs (new N dflt) (by simpa [new] using hN)
    (ringInv_new N dflt)
  simp only [List.nil_append] at hinv
  have hcap : ((new N dflt).extend_from_slice xs).capacity = N :=
    capacity_extend xs (new N dflt)
  have := continuous_slice_of_inv dflt xs ((new N dflt).extend_from_slice xs)
    (by rw [hcap]; exact hN) hinv
  rwa [hcap] at this

/-- Witness for C9: pushing 1..5 into a capacity-4 buffer yields the last four
elements in order. -/
theorem claim_C9_witness :
    ((RingBufferWithSerialSliceAccess.new 4 (0 : ℤ)).extend_from_slice
        [1, 2, 3, 4, 5]).continuous_slice.1 = [2, 3, 4, 5] :=
  (claim_C9 4 (by decide) (0 : ℤ) [1, 2, 3, 4, 5]).trans (by decide)

end RingBufferClaims

/-- The `Peak` value used by `peak_detector.rs` and `envelope_detector.rs`:
relative time and value rounded to three decimal places (`Peak::new` of
`peak/mod.rs`), plus the raw sample index and the ordinal peak number within
the current extraction (the `InternalPeak` fields). -/
structure Peak where
  relative_time : ℚ
  sample_index : ℕ
  value : ℚ
  peak_number : ℕ
deriving DecidableEq

namespace Peak

/-- `Peak::abs_value`. -/
def abs_value (p : Peak) : ℚ := |p.value|

/-- `Peak::new` (with the `InternalPeak` fields): stamps the peak with the
rounded time of its sample via `AudioHistoryMeta::time_of_sample` (whose
panics propagate) and rounds the value to three decimal places. -/
def new (sample_index : ℕ) (value : ℚ) (peak_number : ℕ)
    (audio_meta : AudioHistoryMeta) : Option Peak :=
  (audio_meta.time_of_sample sample_index).map fun t =>
    { relative_time := roundTo3 t
      sample_index := sample_index
      value := roundTo3 value
      peak_number := peak_number }

/-- The `PartialOrd` implementation on `Peak` compares by `relative_time`
only; `current >= next` in the source is this Boolean. -/
def geB (a b : Peak) : Bool := decide (b.relative_time ≤ a.relative_time)

/-- The `PartialEq` implementation on `Peak` also compares by
`relative_time` only. -/
def beqB (a b : Peak) : Bool := decide (a.relative_time = b.relative_time)

end Peak

/-- `ZeroOfFunctionIterator::next` from
`src/peak/zero_of_function_iterator.rs`, as a function of the iterator's
index state: pair up `(i, samples[i])` with `samples[i+1]` starting at
`index`, skip the leading run of exact zeroes, and return one past the first
pair that crosses (or touches) the zero line. -/
def zeroNext (samples : List ℚ) (index : ℕ) : Option ℕ :=
  (((samples.enum.drop index).zip (samples.drop (index + 1))).dropWhile
      (fun p => decide (p.1.2 = 0))).find?
      (fun p => (decide (0 < p.1.2) && decide (p.2 ≤ 0)) ||
        (decide (p.1.2 < 0) && decide (0 ≤ p.2)))
    |>.map fun p => p.1.1 + 1

/-- Every pair inspected by `zeroNext` carries its own position in the
samples list together with the two adjacent sample values. -/
theorem zeroNext_pair_mem {samples : List ℚ} {index : ℕ}
    {p : (ℕ × ℚ) × ℚ}
    (hp : p ∈ (samples.enum.drop index).zip (samples.drop (index + 1))) :
    index ≤ p.1.1 ∧ p.1.1 + 1 < samples.length ∧
      samples[p.1.1]? = some p.1.2 ∧ samples[p.1.1 + 1]? = some p.2 := by
  obtain ⟨i, hi⟩ := List.getElem?_of_mem hp
  rw [List.getElem?_zip_eq_some] at hi
  obtain ⟨h1, h2⟩ := hi
  rw [List.getElem?_drop] at h1 h2
  unfold List.enum at h1
  rw [List.getElem?_enumFrom] at h1
  rcases hs : samples[index + i]? with _ | v
  · rw [hs] at h1
    exact Option.noConfusion h1
  · rw [hs] at h1
    simp only [Option.map_some', Option.some.injEq] at h1
    have hfst : p.1.1 = index + i := by
      rw [← h1]
      simp
    have hsnd : p.1.2 = v := by
      rw [← h1]
    obtain ⟨hlen2, _⟩ := List.getElem?_eq_some_iff.mp h2
    refine ⟨by omega, by omega, ?_, ?_⟩
    · rw [hfst, hsnd]
      exact hs
    · rw [hfst]
      have : index + i + 1 = index + 1 + i := by omega
      rw [this]
      exact h2

/-- Specification of a successful `zeroNext`: the returned index is strictly
beyond the start, strictly inside the samples list, and the two samples
around it witness a zero crossing (in particular the sample just before the
crossing index is nonzero). -/
theorem zeroNext_some_spec {samples : List ℚ} {index z : ℕ}
    (h : zeroNext samples index = some z) :
    index < z ∧ z < samples.length ∧
      ∃ cur next, samples[z - 1]? = some cur ∧ samples[z]? = some next ∧
        ((0 < cur ∧ next ≤ 0) ∨ (cur < 0 ∧ 0 ≤ next)) := by
  unfold zeroNext at h
  rcases hf : (((samples.enum.drop index).zip
      (samples.drop (index + 1))).dropWhile (fun p => decide (p.1.2 = 0))).find?
      (fun p => (decide (0 < p.1.2) && decide (p.2 ≤ 0)) ||
        (decide (p.1.2 < 0) && decide (0 ≤ p.2))) with _ | p
  · rw [hf] at h
    exact Option.noConfusion h
  · rw [hf] at h
    simp only [Option.map_some', Option.some.injEq] at h
    have hmem : p ∈ (samples.enum.drop index).zip (samples.drop (index + 1)) :=
      List.dropWhile_subset _ (List.mem_of_find?_eq_some hf)
    obtain ⟨hge, hlt, hcur, hnext⟩ := zeroNext_pair_mem hmem
    have hprop := List.find?_some hf
    simp only [Bool.or_eq_true, Bool.and_eq_true, decide_eq_true_eq] at hprop
    refine ⟨by omega, by omega, p.1.2, p.2, ?_, ?_, hprop⟩
    · have hz1 : z - 1 = p.1.1 := by omega
      rw [hz1]
      exact hcur
    · rw [← h]
      exact hnext

/-- One step of `LocalMinMaxIterator::next`, the reduce over one
zero-crossing-bounded segment `[lo, hi)`: the element of maximal absolute
value, later elements winning ties (the `reduce` keeps the right operand when
not strictly smaller). -/
def segmentPeak (samples : List ℚ) (lo hi : ℕ) : Option (ℕ × ℚ) :=
  match (samples.enum.drop lo).take (hi - lo) with
  | [] => none
  | x :: xs =>
    some (xs.foldl (fun l r => if |r.2| < |l.2| then l else r) x)

/-- Fuel-indexed loop of `LocalMinMaxIterator::next` from a state where both
the segment start and the zero-iterator index equal `s` (the relationship
maintained by the source: each `next` consumes the crossing that begins the
following segment).  Structural recursion on the fuel keeps the function
kernel-computable; `samples.length - s` fuel always suffices because each
returned crossing is strictly beyond the previous one (`zeroNext_some_spec`),
so `lmmFrom` below computes the full drained iterator. -/
def lmmAux (samples : List ℚ) : ℕ → ℕ → List (ℕ × ℚ)
  | 0, _ => []
  | fuel + 1, s =>
    match zeroNext samples s with
    | none => []
    | some z =>
      match segmentPeak samples s z with
      | none => []
      | some item => item :: lmmAux samples fuel z

/-- The list of `LocalMinMax` items produced by draining the iterator from
start state `s`. -/
def lmmFrom (samples : List ℚ) (s : ℕ) : List (ℕ × ℚ) :=
  lmmAux samples (samples.length - s) s

/-- `LocalMinMaxIterator::new` followed by draining the iterator
(`src/peak/local_min_max_iterator.rs`).  `none` models the panics: the
`assert!(index < samples.len())` for an explicit start index, and the
unchecked `samples[start_index]` read, which is out of bounds on an empty
slice when no start index is given. -/
def LocalMinMaxIterator.run (samples : List ℚ) (preferred_start_index : Option ℕ) :
    Option (List (ℕ × ℚ)) :=
  match preferred_start_index with
  | some i =>
    if h : i < samples.length then some (lmmStart samples i h) else none
  | none =>
    if h : 0 < samples.length then some (lmmStart samples 0 h) else none
where
  /-- The initialisation of `LocalMinMaxIterator::new` after the bounds
  checks: start at the given index if the signal is exactly zero there,
  otherwise at the next zero crossing (no items at all when none exists). -/
  lmmStart (samples : List ℚ) (start : ℕ) (h : start < samples.length) :
      List (ℕ × ℚ) :=
    if samples.get ⟨start, h⟩ = 0 then lmmFrom samples start
    else
      match zeroNext samples start with
      | some z => lmmFrom samples z
      | none => []

/-- `PeakDetector::MINIMUM_PEAK`, the noise floor. -/
def MINIMUM_PEAK : ℚ := 1/20

/-- Sequencing of a list of fallible computations (collecting an iterator of
`Option` values, propagating the first panic). -/
def optionSeq {α : Type} : List (Option α) → Option (List α)
  | [] => some []
  | none :: _ => none
  | some a :: rest => (optionSeq rest).map (a :: ·)

/-- `PeakDetector::detect_peaks` from `src/peak/peak_detector.rs`: run the
segmenter/extremum pipeline, filter out extrema below the noise floor,
enumerate the survivors and stamp each with its time via `Peak::new`.  The
heapless output vector's capacity (512 via `WORKAROUND_CONST`) is not
modelled; every input used in this development yields far fewer peaks. -/
def PeakDetector.detect_peaks (samples : List ℚ) (meta : AudioHistoryMeta)
    (preferred_start_index : Option ℕ) : Option (List Peak) :=
  (LocalMinMaxIterator.run samples preferred_start_index).bind fun lmms =>
    optionSeq
      (((lmms.filter fun im => decide (MINIMUM_PEAK ≤ |im.2|)).enum.map
        fun nim => Peak.new nim.2.1 nim.2.2 nim.1 meta))

section RoundingLemmas

/-- `Rat.floor` is monotone. -/
theorem ratFloor_mono {a b : ℚ} (h : a ≤ b) : Rat.floor a ≤ Rat.floor b :=
  Rat.le_floor.mpr (le_trans (Rat.le_floor.mp le_rfl) h)

/-- `roundQ` is nonnegative on nonnegative input. -/
theorem roundQ_nonneg {q : ℚ} (h : 0 ≤ q) : 0 ≤ roundQ q := by
  unfold roundQ
  rw [if_pos h]
  exact Rat.le_floor.mpr (by push_cast; linarith)

/-- `roundQ` is odd (round half away from zero is symmetric). -/
theorem roundQ_neg (q : ℚ) : roundQ (-q) = - roundQ q := by
  rcases lt_trichotomy q 0 with hq | hq | hq
  · unfold roundQ
    rw [if_pos (by linarith), if_neg (by linarith), neg_neg]
    have h1 : -q + 1/2 = 1/2 - q := by ring
    rw [h1]
  · subst hq
    rw [neg_zero]
    unfold roundQ
    rw [if_pos le_rfl]
    have h0 : Rat.floor ((0 : ℚ) + 1/2) = 0 := by
      have ha : (0 : ℤ) ≤ Rat.floor ((0 : ℚ) + 1/2) :=
        Rat.le_floor.mpr (by norm_num)
      have hb : ¬ (1 : ℤ) ≤ Rat.floor ((0 : ℚ) + 1/2) := by
        intro hc
        have := Rat.le_floor.mp hc
        norm_num at this
      omega
    rw [h0]
    norm_num
  · unfold roundQ
    rw [if_neg (by linarith), if_pos (by linarith)]
    have h1 : 1/2 - -q = q + 1/2 := by ring
    rw [h1]

/-- `roundQ` is monotone. -/
theorem roundQ_mono {a b : ℚ} (h : a ≤ b) : roundQ a ≤ roundQ b := by
  unfold roundQ
  split_ifs with ha hb hb
  · exact ratFloor_mono (by linarith)
  · linarith [hb (le_trans ha h)]
  · have h1 : 0 ≤ Rat.floor (b + 1/2) :=
      Rat.le_floor.mpr (by push_cast; linarith)
    have h2 : 0 ≤ Rat.floor (1/2 - a) :=
      Rat.le_floor.mpr (by push_cast; linarith [lt_of_not_le ha])
    omega
  · have := ratFloor_mono (show 1/2 - b ≤ 1/2 - a by linarith)
    omega

/-- `roundTo3` is monotone. -/
theorem roundTo3_mono {a b : ℚ} (h : a ≤ b) : roundTo3 a ≤ roundTo3 b := by
  unfold roundTo3
  have := roundQ_mono (show a * 1000 ≤ b * 1000 by linarith)
  have hc : ((roundQ (a * 1000) : ℚ)) ≤ ((roundQ (b * 1000) : ℚ)) := by
    exact_mod_cast this
  linarith

/-- Rounding commutes with the absolute value. -/
theorem roundTo3_abs (v : ℚ) : |roundTo3 v| = roundTo3 |v| := by
  rcases le_or_lt 0 v with hv | hv
  · rw [abs_of_nonneg hv, abs_of_nonneg]
    unfold roundTo3
    have h0 : (0 : ℚ) ≤ (roundQ (v * 1000) : ℚ) := by
      exact_mod_cast roundQ_nonneg (by positivity)
    positivity
  · rw [abs_of_neg hv]
    unfold roundTo3
    have hneg : -v * 1000 = -(v * 1000) := by ring
    rw [hneg, roundQ_neg]
    have h2 : roundQ (v * 1000) ≤ 0 := by
      have h3 := roundQ_nonneg (q := -(v * 1000)) (by nlinarith)
      rw [roundQ_neg] at h3
      omega
    rw [abs_div, abs_of_nonpos (show ((roundQ (v * 1000) : ℚ)) ≤ 0 by
      exact_mod_cast h2)]
    push_cast
    norm_num

/-- A value at or above the noise floor stays at or above it after rounding
to three decimal places. -/
theorem roundTo3_abs_ge_min {v : ℚ} (h : MINIMUM_PEAK ≤ |v|) :
    MINIMUM_PEAK ≤ |roundTo3 v| := by
  rw [roundTo3_abs]
  unfold MINIMUM_PEAK at *
  unfold roundTo3 roundQ
  rw [if_pos (by positivity)]
  have h50 : (50 : ℤ) ≤ Rat.floor (|v| * 1000 + 1/2) :=
    Rat.le_floor.mpr (by push_cast; nlinarith [abs_nonneg v])
  have hc : (50 : ℚ) ≤ (Rat.floor (|v| * 1000 + 1/2) : ℚ) := by exact_mod_cast h50
  linarith

end RoundingLemmas

section PeakClaims

/-- Every element of a sequenced list of fallible results appears (wrapped in
`some`) in the original list. -/
theorem optionSeq_mem {α : Type} {l : List (Option α)} {xs : List α}
    (h : optionSeq l = some xs) : ∀ x ∈ xs, some x ∈ l := by
  induction l generalizing xs with
  | nil =>
    unfold optionSeq at h
    cases h
    intro x hx
    cases hx
  | cons o rest ih =>
    cases o with
    | none => exact Option.noConfusion h
    | some a =>
      unfold optionSeq at h
      rw [Option.map_eq_some'] at h
      obtain ⟨ys, hys, rfl⟩ := h
      intro x hx
      rcases List.mem_cons.mp hx with rfl | hx2
      · exact List.mem_cons_self _ _
      · exact List.mem_cons_of_mem _ (ih hys x hx2)

/-- C8: no `Peak` whose rounded absolute amplitude is below the fixed noise
floor `0.05` ever appears in the output of `PeakDetector::detect_peaks`, for
any input slice, start index and history metadata. -/
theorem claim_C8 (samples : List ℚ) (meta : AudioHistoryMeta)
    (pref : Option ℕ) (ps : List Peak)
    (h : PeakDetector.detect_peaks samples meta pref = some ps) :
    ∀ p ∈ ps, MINIMUM_PEAK ≤ p.abs_value := by
  intro p hp
  unfold PeakDetector.detect_peaks at h
  rw [Option.bind_eq_some] at h
  obtain ⟨lmms, _, hseq⟩ := h
  have hmem := optionSeq_mem hseq p hp
  rw [List.mem_map] at hmem
  obtain ⟨nim, hnim, hnew⟩ := hmem
  have hval : p.value = roundTo3 nim.2.2 := by
    unfold Peak.new at hnew
    rw [Option.map_eq_some'] at hnew
    obtain ⟨t, _, hpeq⟩ := hnew
    rw [← hpeq]
  have hfilter : nim.2 ∈ (lmms.filter fun im => decide (MINIMUM_PEAK ≤ |im.2|)) := by
    rw [List.mem_enum_iff_getElem?] at hnim
    exact List.getElem?_mem hnim
  have hcond := (List.mem_filter.mp hfilter).2
  rw [decide_eq_true_eq] at hcond
  unfold Peak.abs_value
  rw [hval]
  exact roundTo3_abs_ge_min hcond

/-- Witness for C8: a concrete extraction whose input contains noise below
the floor (filtered out) and two genuine peaks; both returned peaks respect
the floor. -/
theorem claim_C8_witness :
    PeakDetector.detect_peaks [0, 1/100, -1/100, 1/2, -1/4, 0]
        ((AudioHistoryMeta.new 64 1).update 6) none =
      some [⟨4, 3, 1/2, 0⟩, ⟨5, 4, -1/4, 1⟩] ∧
    ∀ p ∈ [(⟨4, 3, 1/2, 0⟩ : Peak), ⟨5, 4, -1/4, 1⟩],
      MINIMUM_PEAK ≤ p.abs_value :=
  ⟨by decide, claim_C8 [0, 1/100, -1/100, 1/2, -1/4, 0]
    ((AudioHistoryMeta.new 64 1).update 6) none
    [⟨4, 3, 1/2, 0⟩, ⟨5, 4, -1/4, 1⟩] (by decide)⟩

/-- C10: on the empty sample slice with no starting index, peak extraction
panics (the segmenter reads `samples[0]` before checking emptiness) instead
of returning the empty peak sequence; a zero-signal non-empty slice, by
contrast, yields the absent-value result `some []` (no peaks). -/
theorem claim_C10 (meta : AudioHistoryMeta) :
    PeakDetector.detect_peaks [] meta none = none ∧
    PeakDetector.detect_peaks [0, 0, 0] meta none = some [] := by
  constructor <;> rfl

end PeakClaims

/-- `EnvelopeDetector::PEAK_IS_BEAT_CRITERIA` from `src/envelope_detector.rs`. -/
def PEAK_IS_BEAT_CRITERIA : ℚ := 21/10

/-- The ratio-smallness predicate `peak_small_enough_fn` (also the predicate
of the backward search): the peak is significantly smaller than the maximum
peak. -/
def peakSmallEnoughB (max_peak p : Peak) : Bool :=
  decide (p.abs_value * PEAK_IS_BEAT_CRITERIA < max_peak.abs_value)

/-- `EnvelopeDetector::find_max_abs`: fold keeping the first peak of maximal
absolute value. -/
def find_max_abs (peaks : List Peak) : Option Peak :=
  peaks.foldl
    (fun acc p =>
      match acc with
      | none => some p
      | some m => if m.abs_value < p.abs_value then some p else some m)
    none

/-- `EnvelopeDetector::find_envelope_begin`: reverse the peaks, skip the ones
at or after the maximum, look at no more than 7 predecessors (closest first)
and take the first that is significantly smaller than the maximum. -/
def find_envelope_begin (peaks : List Peak) (max_peak : Peak) : Option Peak :=
  ((peaks.reverse.drop (peaks.length - max_peak.peak_number)).take 7).find?
    (peakSmallEnoughB max_peak)

/-- `EnvelopeDetector::find_envelope_end`: walk `(current, next)` pairs after
the maximum, skip while `current` is not yet small enough, then skip while
`current_peak >= next_peak && next_peak != peaks.last()` — where `>=` and
`!=` are the `Peak` implementations comparing `relative_time` only — and
return the first surviving pair's current peak.  The `unwrap` of `last()` is
reached only when a pair exists, hence only for non-empty `peaks`. -/
def find_envelope_end (peaks : List Peak) (max_peak : Peak) : Option Peak :=
  match peaks.getLast? with
  | none => none
  | some last_peak =>
    ((((peaks.zip peaks.tail).drop (max_peak.peak_number + 1)).dropWhile
        (fun cn => ! peakSmallEnoughB max_peak cn.1)).dropWhile
        (fun cn => Peak.geB cn.1 cn.2 && ! Peak.beqB cn.2 last_peak)).head?.map
      Prod.fst

/-- The forward search as the specification sentence words it: after the
ratio-smallness skip, "continue skipping while the *next* peak is still ≥
the current one (decay not yet reached) unless the next peak is the very
last peak available".  Only the decay comparison differs from the code: the
spec compares `next ≥ current` where the code tests `current >= next`. -/
def find_envelope_end_spec (peaks : List Peak) (max_peak : Peak) : Option Peak :=
  match peaks.getLast? with
  | none => none
  | some last_peak =>
    ((((peaks.zip peaks.tail).drop (max_peak.peak_number + 1)).dropWhile
        (fun cn => ! peakSmallEnoughB max_peak cn.1)).dropWhile
        (fun cn => Peak.geB cn.2 cn.1 && ! Peak.beqB cn.2 last_peak)).head?.map
      Prod.fst

/-- `BeatIntensity` from `src/beat_intensity.rs` (its constructor performs no
checks; the asserts are commented out in the source). -/
structure BeatIntensity where
  val : ℚ
deriving DecidableEq

/-- `BeatIntensity::new`. -/
def BeatIntensity.new (val : ℚ) : BeatIntensity := ⟨val⟩

/-- `Envelope` from `src/envelope_detector.rs`. -/
structure Envelope where
  begin_ : Peak
  highest : Peak
  end_ : Peak
  intensity : BeatIntensity
  clarity_begin : ℚ
  clarity_end : ℚ
deriving DecidableEq

/-- `Envelope::new`: the two ordering asserts (`begin < highest`,
`highest < end`, comparisons on rounded `relative_time` via `PartialOrd`)
modelled as the panic case `none`; clarity ratios rounded to three decimal
places. -/
def Envelope.new (b e h : Peak) : Option Envelope :=
  if b.relative_time < h.relative_time ∧ h.relative_time < e.relative_time then
    some
      { begin_ := b
        highest := h
        end_ := e
        intensity := BeatIntensity.new h.abs_value
        clarity_begin := roundTo3 (h.abs_value / b.abs_value)
        clarity_end := roundTo3 (h.abs_value / e.abs_value) }
  else none

/-- State of `EnvelopeDetector` from `src/envelope_detector.rs`. -/
structure EnvelopeDetector where
  previous_envelope_end_peak_index : Option ℕ
deriving DecidableEq

/-- `EnvelopeDetector::new`. -/
def EnvelopeDetector.new : EnvelopeDetector := ⟨none⟩

/-- `EnvelopeDetector::detect_envelope`: translate the stored previous
envelope end through `calc_index_after_update` (its panic propagates), store
the translated index, extract peaks from it on, pick the maximum, search
begin and end, construct the envelope (assert panics propagate) and store its
end sample index.  Returns the optional envelope together with the detector's
new state. -/
def EnvelopeDetector.detect_envelope (self : EnvelopeDetector)
    (audio_meta : AudioHistoryMeta) (samples : List ℚ) :
    Option (Option Envelope × EnvelopeDetector) :=
  (match self.previous_envelope_end_peak_index with
   | none => some none
   | some idx => audio_meta.calc_index_after_update idx).bind fun start_index =>
  (PeakDetector.detect_peaks samples audio_meta start_index).bind fun peaks =>
  match find_max_abs peaks with
  | none => some (none, ⟨start_index⟩)
  | some max_peak =>
    match find_envelope_begin peaks max_peak with
    | none => some (none, ⟨start_index⟩)
    | some b =>
      match find_envelope_end peaks max_peak with
      | none => some (none, ⟨start_index⟩)
      | some e =>
        (Envelope.new b e max_peak).map fun env =>
          (some env, ⟨some env.end_.sample_index⟩)

section EnvelopeSearchClaims

/-- Specification of `find_max_abs`: the result dominates every peak in the
list in absolute value (foldl invariant). -/
theorem find_max_abs_spec (peaks : List Peak) (m : Peak)
    (h : find_max_abs peaks = some m) :
    ∀ p ∈ peaks, p.abs_value ≤ m.abs_value := by
  suffices haux : ∀ (l : List Peak) (acc : Option Peak) (m : Peak),
      l.foldl
        (fun acc p =>
          match acc with
          | none => some p
          | some mm => if mm.abs_value < p.abs_value then some p else some mm)
        acc = some m →
      (∀ p ∈ l, p.abs_value ≤ m.abs_value) ∧
        (∀ a, acc = some a → a.abs_value ≤ m.abs_value) by
    exact (haux peaks none m h).1
  intro l
  induction l with
  | nil =>
    intro acc m h
    simp only [List.foldl_nil] at h
    exact ⟨fun p hp => absurd hp (List.not_mem_nil p), fun a ha => by
      rw [ha] at h
      cases h
      exact le_rfl⟩
  | cons p t ih =>
    intro acc m h
    simp only [List.foldl_cons] at h
    obtain ⟨ht, hacc⟩ := ih _ m h
    have hp_le : p.abs_value ≤ m.abs_value := by
      cases acc with
      | none => exact hacc p rfl
      | some a =>
        by_cases hcmp : a.abs_value < p.abs_value
        · exact hacc p (by simp [hcmp])
        · exact le_trans (le_of_not_lt hcmp) (hacc a (by simp [hcmp]))
    refine ⟨fun q hq => ?_, fun a ha => ?_⟩
    · rcases List.mem_cons.mp hq with rfl | hq2
      · exact hp_le
      · exact ht q hq2
    · subst ha
      by_cases hcmp : a.abs_value < p.abs_value
      · exact le_trans (le_of_lt hcmp) (hacc p (by simp [hcmp]))
      · exact hacc a (by simp [hcmp])

/-- The end peak returned by `find_envelope_end` is one of the peaks. -/
theorem find_envelope_end_mem {peaks : List Peak} {max_peak e : Peak}
    (h : find_envelope_end peaks max_peak = some e) : e ∈ peaks := by
  unfold find_envelope_end at h
  cases hlast : peaks.getLast? with
  | none => rw [hlast] at h; exact Option.noConfusion h
  | some last_peak =>
    rw [hlast] at h
    rw [Option.map_eq_some'] at h
    obtain ⟨cn, hhead, hfst⟩ := h
    obtain ⟨ys, hys⟩ := List.head?_eq_some_iff.mp hhead
    have hmem : cn ∈ ((peaks.zip peaks.tail).drop
        (max_peak.peak_number + 1)).dropWhile
        (fun cn => ! peakSmallEnoughB max_peak cn.1) :=
      List.dropWhile_subset _ (hys ▸ List.mem_cons_self cn ys)
    have hmem2 : cn ∈ (peaks.zip peaks.tail).drop (max_peak.peak_number + 1) :=
      List.dropWhile_subset _ hmem
    have hmem3 : cn ∈ peaks.zip peaks.tail := List.drop_subset _ _ hmem2
    have := List.of_mem_zip (by rw [show ((cn.1, cn.2) : Peak × Peak) = cn from rfl]; exact hmem3)
    rw [hfst] at this
    exact this.1

/-- The begin peak returned by `find_envelope_begin` satisfies the ratio
criterion against the maximum peak. -/
theorem find_envelope_begin_small {peaks : List Peak} {max_peak b : Peak}
    (h : find_envelope_begin peaks max_peak = some b) :
    b.abs_value * PEAK_IS_BEAT_CRITERIA < max_peak.abs_value := by
  unfold find_envelope_begin at h
  have := List.find?_some h
  unfold peakSmallEnoughB at this
  rwa [decide_eq_true_eq] at this

/-- C4 (amended): every envelope produced by
`EnvelopeDetector::detect_envelope` satisfies
`begin.time < highest.time < end.time` and
`|begin| · 2.1 < |highest|`; for the end peak only `|end| ≤ |highest|` is
guaranteed — the decay skip compares peaks by rounded time, so when
consecutive peaks after the maximum share a rounded timestamp the end peak
can fail the 2.1 ratio (see the counterexample). -/
theorem claim_C4 (st : EnvelopeDetector) (meta : AudioHistoryMeta)
    (samples : List ℚ) (env : Envelope) (st' : EnvelopeDetector)
    (h : st.detect_envelope meta samples = some (some env, st')) :
    env.begin_.relative_time < env.highest.relative_time ∧
    env.highest.relative_time < env.end_.relative_time ∧
    env.begin_.abs_value * PEAK_IS_BEAT_CRITERIA < env.highest.abs_value ∧
    env.end_.abs_value ≤ env.highest.abs_value := by
  unfold EnvelopeDetector.detect_envelope at h
  rw [Option.bind_eq_some] at h
  obtain ⟨start, _, h⟩ := h
  rw [Option.bind_eq_some] at h
  obtain ⟨peaks, _, h⟩ := h
  split at h
  · simp at h
  · rename_i max_peak hmax
    split at h
    · simp at h
    · rename_i b hbeg
      split at h
      · simp at h
      · rename_i e hend
        rw [Option.map_eq_some'] at h
        obtain ⟨env', henv, heq⟩ := h
        have henv_eq : env' = env := by
          have := congrArg Prod.fst heq
          simpa using this
        subst henv_eq
        unfold Envelope.new at henv
        split at henv
        · rename_i hord
          cases henv
          refine ⟨hord.1, hord.2, ?_, ?_⟩
          · exact find_envelope_begin_small hbeg
          · exact find_max_abs_spec peaks max_peak hmax e
              (find_envelope_end_mem hend)
        · exact Option.noConfusion henv

/-- The 14-sample input (sampling rate 2048 Hz) whose third and fourth peaks
fall in the same rounded millisecond. -/
def c4samples : List ℚ :=
  [0, 1/8, -1/4, -1/4, -1/4, -7/8, -1/4, 1/8, -1/2, -1/4, 1/16, 1/8, -1/8,
    -1/16]

/-- The envelope the detector produces on `c4samples`. -/
def c4envelope : Envelope :=
  { begin_ := ⟨1/1000, 1, 1/8, 0⟩
    highest := ⟨3/1000, 5, -7/8, 1⟩
    end_ := ⟨1/250, 8, -1/2, 3⟩
    intensity := ⟨7/8⟩
    clarity_begin := 7
    clarity_end := 7/4 }

/-- Counterexample to C4 as stated: on `c4samples` the detector produces an
envelope whose end peak violates `|end| · 2.1 < |highest|`
(`0.5 · 2.1 = 1.05 ≥ 0.875`), because the peaks at sample indices 7 and 8
share the rounded time `0.004 s`, making the decay skip
(`current >= next` on times) step past the ratio-satisfying peak. -/
theorem claim_C4_counterexample :
    EnvelopeDetector.new.detect_envelope
        ((AudioHistoryMeta.new 22500 2048).update 14) c4samples =
      some (some c4envelope, ⟨some 8⟩) ∧
    c4envelope.highest.abs_value ≤
      c4envelope.end_.abs_value * PEAK_IS_BEAT_CRITERIA := by
  constructor
  · decide
  · decide

/-- Witness for the amended C4 at the concrete input of the counterexample. -/
theorem claim_C4_witness :
    c4envelope.begin_.relative_time < c4envelope.highest.relative_time ∧
    c4envelope.highest.relative_time < c4envelope.end_.relative_time ∧
    c4envelope.begin_.abs_value * PEAK_IS_BEAT_CRITERIA <
      c4envelope.highest.abs_value ∧
    c4envelope.end_.abs_value ≤ c4envelope.highest.abs_value :=
  claim_C4 EnvelopeDetector.new ((AudioHistoryMeta.new 22500 2048).update 14)
    c4samples c4envelope ⟨some 8⟩ (by decide)

/-- C5 (amended): the forward search for the envelope end walks `(current,
next)` pairs starting immediately after the max peak and skips while
`current` fails the ratio-smallness criterion; the subsequent decay skip
tests `current >= next` in the `Peak` order, which compares rounded
`relative_time`, not amplitude — so whenever the peak times are strictly
increasing it is a no-op and the returned end is simply the first pair whose
current peak satisfies the ratio criterion (`none` when no such pair
exists). -/
theorem claim_C5 (peaks : List Peak) (max_peak : Peak)
    (hchain : List.Pairwise (fun a b => a.relative_time < b.relative_time) peaks) :
    find_envelope_end peaks max_peak =
      (((peaks.zip peaks.tail).drop (max_peak.peak_number + 1)).find?
        (fun cn => peakSmallEnoughB max_peak cn.1)).map Prod.fst := by
  unfold find_envelope_end
  cases hlast : peaks.getLast? with
  | none =>
    have hnil : peaks = [] := List.getLast?_eq_none_iff.mp hlast
    subst hnil
    simp
  | some last_peak =>
    have hpair : ∀ cn ∈ (peaks.zip peaks.tail).drop (max_peak.peak_number + 1),
        cn.1.relative_time < cn.2.relative_time := by
      intro cn hcn
      have hz : cn ∈ peaks.zip peaks.tail := List.drop_subset _ _ hcn
      obtain ⟨i, hi⟩ := List.getElem?_of_mem hz
      rw [List.getElem?_zip_eq_some] at hi
      obtain ⟨h1, h2⟩ := hi
      rw [List.getElem?_tail] at h2
      obtain ⟨hlt1, he1⟩ := List.getElem?_eq_some_iff.mp h1
      obtain ⟨hlt2, he2⟩ := List.getElem?_eq_some_iff.mp h2
      have hR := (List.pairwise_iff_getElem.mp hchain) i (i + 1) hlt1 hlt2
        (by omega)
      rw [he1, he2] at hR
      exact hR
    dsimp only
    have hdrop2 :
        (((peaks.zip peaks.tail).drop (max_peak.peak_number + 1)).dropWhile
            (fun cn => ! peakSmallEnoughB max_peak cn.1)).dropWhile
          (fun cn => Peak.geB cn.1 cn.2 && ! Peak.beqB cn.2 last_peak) =
        ((peaks.zip peaks.tail).drop (max_peak.peak_number + 1)).dropWhile
          (fun cn => ! peakSmallEnoughB max_peak cn.1) := by
      cases hL : ((peaks.zip peaks.tail).drop (max_peak.peak_number + 1)).dropWhile
          (fun cn => ! peakSmallEnoughB max_peak cn.1) with
      | nil => rfl
      | cons a t =>
        have ha : a ∈ (peaks.zip peaks.tail).drop (max_peak.peak_number + 1) :=
          List.dropWhile_subset _ (hL ▸ List.mem_cons_self a t)
        have hlt := hpair a ha
        rw [List.dropWhile_cons_of_neg]
        unfold Peak.geB
        simp only [Bool.and_eq_true, decide_eq_true_eq, not_and, Bool.not_eq_true]
        intro hge
        exact absurd hge (not_le.mpr hlt)
    rw [hdrop2, List.find?_eq_head?_dropWhile_not]

/-- Six peaks used to separate the coded forward search from the
specification's description of it. -/
def c5peaks : List Peak :=
  [⟨1/1000, 1, 1/8, 0⟩, ⟨3/1000, 5, -7/8, 1⟩, ⟨1/250, 7, 1/8, 2⟩,
    ⟨5/1000, 8, -1/2, 3⟩, ⟨3/500, 10, 1/8, 4⟩, ⟨7/1000, 12, -1/4, 5⟩]

/-- Counterexample to C5 as stated: on `c5peaks` with the maximum at peak
number 1, the code returns the peak at time `0.004` (the first
ratio-satisfying peak — its skip condition `current >= next` on strictly
increasing times never fires), while the specification's walk ("skip while
the next peak is still ≥ the current one unless it is the very last")
would skip up to the second-to-last peak, at time `0.006`. -/
theorem claim_C5_counterexample :
    find_envelope_end c5peaks ⟨3/1000, 5, -7/8, 1⟩ =
      some ⟨1/250, 7, 1/8, 2⟩ ∧
    find_envelope_end_spec c5peaks ⟨3/1000, 5, -7/8, 1⟩ =
      some ⟨3/500, 10, 1/8, 4⟩ ∧
    (⟨1/250, 7, 1/8, 2⟩ : Peak) ≠ ⟨3/500, 10, 1/8, 4⟩ := by
  refine ⟨by decide, by decide, by decide⟩

/-- Witness for the amended C5 at the concrete `c5peaks`. -/
theorem claim_C5_witness :
    find_envelope_end c5peaks ⟨3/1000, 5, -7/8, 1⟩ =
      (((c5peaks.zip c5peaks.tail).drop 2).find?
        (fun cn => peakSmallEnoughB ⟨3/1000, 5, -7/8, 1⟩ cn.1)).map Prod.fst :=
  claim_C5 c5peaks ⟨3/1000, 5, -7/8, 1⟩ (by decide)

end EnvelopeSearchClaims

/-- Coefficients of one second-order IIR section, as produced by the external
`biquad` crate's `Coefficients::from_params` (an opaque real-valued
computation from filter type, sampling frequency, cutoff frequency and the
Butterworth Q factor).  `band_analyzer.rs` recomputes them from the same
construction parameters on every call, so they are constants of the analyzer
and are passed as parameters of the embedding. -/
structure BiquadCoefficients where
  a1 : ℚ
  a2 : ℚ
  b0 : ℚ
  b1 : ℚ
  b2 : ℚ
deriving DecidableEq

/-- State of `biquad::DirectForm1`: the coefficients plus the delay memory
`x1, x2, y1, y2` (the filter state the specification says persists across
chunks). -/
structure DirectForm1 where
  coefficients : BiquadCoefficients
  x1 : ℚ
  x2 : ℚ
  y1 : ℚ
  y2 : ℚ
deriving DecidableEq

/-- `DirectForm1::new`: zeroed delay memory. -/
def DirectForm1.new (coefficients : BiquadCoefficients) : DirectForm1 :=
  ⟨coefficients, 0, 0, 0, 0⟩

/-- `DirectForm1::run`, the standard direct-form-1 difference equation
`out = b0·x + b1·x1 + b2·x2 − a1·y1 − a2·y2` followed by the delay shift. -/
def DirectForm1.run (f : DirectForm1) (input : ℚ) : ℚ × DirectForm1 :=
  let out := f.coefficients.b0 * input + f.coefficients.b1 * f.x1 +
    f.coefficients.b2 * f.x2 - f.coefficients.a1 * f.y1 -
    f.coefficients.a2 * f.y2
  (out, { f with x2 := f.x1, x1 := input, y2 := f.y1, y1 := out })

/-- `BandAnalyzer::apply_band_filter` from `src/band_analyzer.rs`: after the
two length asserts (`samples.len() <= N`, `samples.len() > 10`, modelled as
the panic `none`), the band-pass ring buffer is cleared, both filter sections
are constructed afresh with `DirectForm1::new` (zeroed delay memory), and
each sample is run through the high-pass then the low-pass section with the
result pushed into the buffer.  Returns the buffer and the two sections'
final states. -/
def BandAnalyzer.apply_band_filter (hp lp : BiquadCoefficients)
    (samples : List ℚ)
    (band_pass_samples_buffer : RingBufferWithSerialSliceAccess ℚ) :
    Option (RingBufferWithSerialSliceAccess ℚ × DirectForm1 × DirectForm1) :=
  if samples.length ≤ band_pass_samples_buffer.capacity then
    if 10 < samples.length then
      some (samples.foldl
        (fun acc sample =>
          let hr := acc.2.1.run sample
          let lr := acc.2.2.run hr.1
          (acc.1.push lr.1, hr.2, lr.2))
        (band_pass_samples_buffer.clear, DirectForm1.new hp,
          DirectForm1.new lp))
    else none
  else none

/-- `BandAnalyzer::detect_envelope` from `src/band_analyzer.rs`: apply the
band filter into the buffer, linearize it and delegate to the envelope
detector.  The `BandAnalyzer` struct's only mutable state is its
`EnvelopeDetector`, threaded here explicitly together with the buffer. -/
def BandAnalyzer.detect_envelope (hp lp : BiquadCoefficients)
    (envelope_detector : EnvelopeDetector) (original_samples : List ℚ)
    (band_pass_samples_buffer : RingBufferWithSerialSliceAccess ℚ)
    (audio_meta : AudioHistoryMeta) :
    Option (Option Envelope × EnvelopeDetector ×
      RingBufferWithSerialSliceAccess ℚ) :=
  (BandAnalyzer.apply_band_filter hp lp original_samples
      band_pass_samples_buffer).bind fun r =>
    (envelope_detector.detect_envelope audio_meta
        r.1.continuous_slice.1).map fun er =>
      (er.1, er.2, r.1.continuous_slice.2)

/-- `FrequencyBand` from `src/beat_info.rs`. -/
inductive FrequencyBand
  | Low
  | Middle
deriving DecidableEq

/-- `BeatInfo` from `src/beat_info.rs` (`bpm` is the placeholder byte). -/
structure BeatInfo where
  bpm : ℕ
  envelope : Envelope
  frequency_band : FrequencyBand
deriving DecidableEq

/-- State of `BeatDetector` from `src/beat_detector.rs`: the audio history
(meta plus ring buffer of capacity 22,500), the capped beat history, the
first-call validation flag and the low-band analyzer's state (its envelope
detector and, reconciling the snapshot's two persisted variants of the band
analyzer interface, the band-passed ring buffer the analyzer writes into). -/
structure BeatDetector where
  audio_meta : AudioHistoryMeta
  audio_ring : RingBufferWithSerialSliceAccess ℚ
  beat_history : RingBufferWithSerialSliceAccess (Option Envelope)
  assert_values_done : Bool
  envelope_detector : EnvelopeDetector
  band_buffer : RingBufferWithSerialSliceAccess ℚ
deriving DecidableEq

/-- `BeatDetector::new`. -/
def BeatDetector.new (sampling_rate : ℚ) : BeatDetector where
  audio_meta := AudioHistoryMeta.new 22500 sampling_rate
  audio_ring := RingBufferWithSerialSliceAccess.new 22500 0
  beat_history := RingBufferWithSerialSliceAccess.new 10 none
  assert_values_done := false
  envelope_detector := EnvelopeDetector.new
  band_buffer := RingBufferWithSerialSliceAccess.new 22500 0

/-- `BeatDetector::on_new_audio` from `src/beat_detector.rs`: validate the
chunk, update the sample history, run the low-band analyzer on the new audio
data, and wrap a detected envelope into a `BeatInfo` with the `Low` band tag
and the placeholder BPM `1`, recording it in the capped beat history. -/
def BeatDetector.on_new_audio (hp lp : BiquadCoefficients) (d : BeatDetector)
    (new_audio_data : List ℚ) : Option (Option BeatInfo × BeatDetector) :=
  (assert_new_audio_data (!d.assert_values_done) d.audio_meta.time_per_sample
      new_audio_data).bind fun _warned =>
  let meta2 := d.audio_meta.update new_audio_data.length
  let ring2 := d.audio_ring.extend_from_slice new_audio_data
  (BandAnalyzer.detect_envelope hp lp d.envelope_detector new_audio_data
      d.band_buffer meta2).map fun r =>
    match r.1 with
    | none =>
      (none,
        { d with
          audio_meta := meta2, audio_ring := ring2, assert_values_done := true
          envelope_detector := r.2.1, band_buffer := r.2.2 })
    | some env =>
      (some ⟨1, env, FrequencyBand.Low⟩,
        { d with
          audio_meta := meta2, audio_ring := ring2, assert_values_done := true
          envelope_detector := r.2.1, band_buffer := r.2.2
          beat_history := d.beat_history.push (some env) })

section BandClaims

/-- Pure description of running a sample list through the cascaded high-pass
and low-pass sections from given initial states: the band-passed output list
and the two final states. -/
def df1RunChain (hpf lpf : DirectForm1) :
    List ℚ → List ℚ × DirectForm1 × DirectForm1
  | [] => ([], hpf, lpf)
  | s :: rest =>
    let hr := hpf.run s
    let lr := lpf.run hr.1
    let t := df1RunChain hr.2 lr.2 rest
    (lr.1 :: t.1, t.2)

/-- The filter fold of `apply_band_filter` equals pushing the
`df1RunChain` outputs into the buffer, with the same final filter states. -/
theorem band_foldl_eq (samples : List ℚ)
    (buf : RingBufferWithSerialSliceAccess ℚ) (hpf lpf : DirectForm1) :
    samples.foldl
        (fun acc sample =>
          let hr := acc.2.1.run sample
          let lr := acc.2.2.run hr.1
          (acc.1.push lr.1, hr.2, lr.2))
        (buf, hpf, lpf) =
      (buf.extend_from_slice (df1RunChain hpf lpf samples).1,
        (df1RunChain hpf lpf samples).2) := by
  induction samples generalizing buf hpf lpf with
  | nil => rfl
  | cons s rest ih =>
    simp only [List.foldl_cons, df1RunChain]
    rw [ih]
    rfl

/-- C2 (amended): the IIR delay memory does not persist across calls — each
call to `apply_band_filter` constructs both second-order sections anew with
zeroed memory (`DirectForm1::new`) and clears the band-pass buffer before
refilling it, so the filtered slice handeded on and the final filter states
are a function of the current chunk alone, independent of any state left by
earlier chunks in the buffer. -/
theorem claim_C2 (hp lp : BiquadCoefficients) (samples : List ℚ)
    (b1 b2 : RingBufferWithSerialSliceAccess ℚ)
    (hcap : b1.capacity = b2.capacity)
    (hb1 : b1.buffer.length = b1.capacity)
    (hb2 : b2.buffer.length = b2.capacity) (hN : 0 < b1.capacity) :
    (BandAnalyzer.apply_band_filter hp lp samples b1).map
        (fun r => (r.1.continuous_slice.1, r.2)) =
      (BandAnalyzer.apply_band_filter hp lp samples b2).map
        (fun r => (r.1.continuous_slice.1, r.2)) := by
  unfold BandAnalyzer.apply_band_filter
  rw [← hcap]
  split_ifs with h1 h2
  · simp only [Option.map_some']
    rw [band_foldl_eq, band_foldl_eq]
    set outs := (df1RunChain (DirectForm1.new hp) (DirectForm1.new lp)
      samples).1 with houts
    have hslice : ∀ (b : RingBufferWithSerialSliceAccess ℚ),
        b.buffer.length = b.capacity → b.capacity = b1.capacity →
        (b.clear.extend_from_slice outs).continuous_slice.1 =
          outs.drop (outs.length - min outs.length b1.capacity) := by
      intro b hb hbcap
      have hinv := ringInv_extend (0 : ℚ) []
        outs b.clear (by simpa [RingBufferWithSerialSliceAccess.clear] using
          (hbcap ▸ hN))
        (ringInv_clear (0 : ℚ) b hb)
      simp only [List.nil_append] at hinv
      have hcap2 : (b.clear.extend_from_slice outs).capacity = b.capacity :=
        capacity_extend outs b.clear
      have := continuous_slice_of_inv (0 : ℚ) outs
        (b.clear.extend_from_slice outs)
        (by rw [hcap2]; simpa [RingBufferWithSerialSliceAccess.clear] using
          (hbcap ▸ hN)) hinv
      rw [hcap2] at this
      rw [this, hbcap]
    rw [hslice b1 hb1 rfl, hslice b2 hb2 hcap.symm]
  · rfl
  · rfl

/-- The eleven-sample chunk (ten zeroes then a one) used to exhibit the
non-persistence of the filter memory. -/
def c2chunk : List ℚ := [0, 0, 0, 0, 0, 0, 0, 0, 0, 0, 1]

/-- Counterexample to C2 as stated: after processing `c2chunk` the high-pass
section's delay memory holds `x1 = 1` (and `y1 = 1` for pass-through
coefficients), but the memory both sections start from at the beginning of
the next call is `DirectForm1::new`'s zeroed state — the end-of-chunk memory
is simply discarded, so the memory at the start of the second chunk does not
equal the memory left at the end of the first. -/
theorem claim_C2_counterexample :
    ((BandAnalyzer.apply_band_filter ⟨0, 0, 1, 0, 0⟩ ⟨0, 0, 1, 0, 0⟩ c2chunk
        (RingBufferWithSerialSliceAccess.new 16 0)).map fun r => r.2.1) =
      some ⟨⟨0, 0, 1, 0, 0⟩, 1, 0, 1, 0⟩ ∧
    (⟨⟨0, 0, 1, 0, 0⟩, 1, 0, 1, 0⟩ : DirectForm1) ≠
      DirectForm1.new ⟨0, 0, 1, 0, 0⟩ := by
  refine ⟨by decide, by decide⟩

/-- Witness for the amended C2: two buffers with different residual contents
(one fresh, one already pushed-to) produce the same filtered slice and the
same final filter states for the same chunk. -/
theorem claim_C2_witness :
    (BandAnalyzer.apply_band_filter ⟨0, 0, 1, 0, 0⟩ ⟨0, 0, 1, 0, 0⟩ c2chunk
        (RingBufferWithSerialSliceAccess.new 16 0)).map
        (fun r => (r.1.continuous_slice.1, r.2)) =
      (BandAnalyzer.apply_band_filter ⟨0, 0, 1, 0, 0⟩ ⟨0, 0, 1, 0, 0⟩ c2chunk
        ((RingBufferWithSerialSliceAccess.new 16 0).push 5)).map
        (fun r => (r.1.continuous_slice.1, r.2)) :=
  claim_C2 ⟨0, 0, 1, 0, 0⟩ ⟨0, 0, 1, 0, 0⟩ c2chunk
    (RingBufferWithSerialSliceAccess.new 16 0)
    ((RingBufferWithSerialSliceAccess.new 16 0).push 5)
    (by decide) (by decide) (by decide) (by decide)

/-- C7 (amended): chunk size is advisory only inside
`assert_new_audio_data` (which never aborts, at most logging a warning), but
`apply_band_filter` asserts `10 < len ≤ capacity`: a call aborts on the chunk
size exactly when the chunk has at most 10 samples or exceeds the band
buffer's capacity. -/
theorem claim_C7 (hp lp : BiquadCoefficients) (samples : List ℚ)
    (buf : RingBufferWithSerialSliceAccess ℚ) :
    (BandAnalyzer.apply_band_filter hp lp samples buf ≠ none ↔
      10 < samples.length ∧ samples.length ≤ buf.capacity) ∧
    ∀ (first_call : Bool) (time_per_sample : ℚ) (chunk : List ℚ),
      assert_new_audio_data first_call time_per_sample chunk ≠ none := by
  refine ⟨?_, assert_new_audio_data_ne_none⟩
  unfold BandAnalyzer.apply_band_filter
  split_ifs with h1 h2
  · simp only [ne_eq, reduceCtorEq, not_false_eq_true, true_iff]
    exact ⟨h2, h1⟩
  · simp only [ne_eq, not_true_eq_false, false_iff, not_and]
    intro hc
    exact absurd hc h2
  · simp only [ne_eq, not_true_eq_false, false_iff, not_and]
    intro _ hc
    exact absurd hc h1

/-- Counterexample to C7 as stated: a five-sample chunk whose samples all lie
in `[-1, 1]` makes `on_new_audio` abort (the `samples.len() > 10` assert in
`apply_band_filter`), rather than merely logging an advisory warning. -/
theorem claim_C7_counterexample :
    BeatDetector.on_new_audio ⟨0, 0, 1, 0, 0⟩ ⟨0, 0, 1, 0, 0⟩
        (BeatDetector.new 2048) [1/10, 1/10, 1/10, 1/10, 1/10] = none ∧
    ∀ x ∈ [(1/10 : ℚ), 1/10, 1/10, 1/10, 1/10], -1 ≤ x ∧ x ≤ 1 := by
  refine ⟨by decide, by decide⟩

end BandClaims

section StreamMonotonicity

/-- The extremum fold keeps one of its two operands at every step, so its
result is the start value or a member of the folded list. -/
theorem segFold_mem (xs : List (ℕ × ℚ)) :
    ∀ a : ℕ × ℚ,
      xs.foldl (fun l r => if |r.2| < |l.2| then l else r) a ∈ a :: xs := by
  induction xs with
  | nil => intro a; exact List.mem_singleton.mpr rfl
  | cons y ys ih =>
    intro a
    simp only [List.foldl_cons]
    rcases List.mem_cons.mp (ih (if |y.2| < |a.2| then a else y)) with heq | hmem
    · rw [heq]
      split_ifs with hc
      · exact List.mem_cons_self _ _
      · exact List.mem_cons_of_mem _ (List.mem_cons_self _ _)
    · exact List.mem_cons_of_mem _ (List.mem_cons_of_mem _ hmem)

/-- Membership description of the segment window inspected by one
`LocalMinMaxIterator::next` step. -/
theorem segment_window_mem {samples : List ℚ} {lo hi : ℕ} {it : ℕ × ℚ}
    (hmem : it ∈ (samples.enum.drop lo).take (hi - lo)) :
    lo ≤ it.1 ∧ it.1 < hi ∧ it.1 < samples.length ∧
      samples[it.1]? = some it.2 := by
  obtain ⟨k, hk⟩ := List.getElem?_of_mem hmem
  have hklen : k < ((samples.enum.drop lo).take (hi - lo)).length :=
    (List.getElem?_eq_some_iff.mp hk).1
  rw [List.length_take] at hklen
  have hklt : k < hi - lo := lt_of_lt_of_le hklen (min_le_left _ _)
  rw [List.getElem?_take_of_lt hklt, List.getElem?_drop] at hk
  unfold List.enum at hk
  rw [List.getElem?_enumFrom] at hk
  rcases hs : samples[lo + k]? with _ | v
  · rw [hs] at hk
    exact Option.noConfusion hk
  · rw [hs] at hk
    simp only [Option.map_some', Option.some.injEq, Nat.zero_add] at hk
    subst hk
    dsimp only
    have hlen : lo + k < samples.length := (List.getElem?_eq_some_iff.mp hs).1
    exact ⟨by omega, by omega, hlen, hs⟩

/-- Specification of `segmentPeak`: the returned item lies in the window and
carries the sample value at its index. -/
theorem segmentPeak_spec {samples : List ℚ} {lo hi : ℕ} {it : ℕ × ℚ}
    (h : segmentPeak samples lo hi = some it) :
    lo ≤ it.1 ∧ it.1 < hi ∧ it.1 < samples.length ∧
      samples[it.1]? = some it.2 := by
  unfold segmentPeak at h
  rcases hw : (samples.enum.drop lo).take (hi - lo) with _ | ⟨x, xs⟩
  · rw [hw] at h
    exact Option.noConfusion h
  · rw [hw] at h
    have h2 : some (xs.foldl (fun l r => if |r.2| < |l.2| then l else r) x) =
        some it := h
    have h3 := Option.some.inj h2
    have hm := segFold_mem xs x
    rw [h3, ← hw] at hm
    exact segment_window_mem hm

/-- Unfolding equation for the fuelled extremum loop at positive fuel. -/
theorem lmmAux_succ (samples : List ℚ) (fuel s : ℕ) :
    lmmAux samples (fuel + 1) s =
      match zeroNext samples s with
      | none => []
      | some z =>
        match segmentPeak samples s z with
        | none => []
        | some item => item :: lmmAux samples fuel z := rfl

/-- Unfolding equation for the fuelled extremum loop once the next zero
crossing is known. -/
theorem lmmAux_succ₂ (samples : List ℚ) (fuel s z : ℕ)
    (hz : zeroNext samples s = some z) :
    lmmAux samples (fuel + 1) s =
      match segmentPeak samples s z with
      | none => []
      | some item => item :: lmmAux samples fuel z := by
  rw [lmmAux_succ, hz]

/-- Specification of the fuelled extremum loop: every emitted item sits at or
beyond the start, inside the samples, carries the sample value at its index,
and the item indices are strictly increasing. -/
theorem lmmAux_spec (samples : List ℚ) :
    ∀ fuel s : ℕ,
      (∀ it ∈ lmmAux samples fuel s,
        s ≤ it.1 ∧ it.1 < samples.length ∧ samples[it.1]? = some it.2) ∧
      List.Pairwise (fun a b => a.1 < b.1) (lmmAux samples fuel s) := by
  intro fuel
  induction fuel with
  | zero =>
    intro s
    exact ⟨fun it hit => absurd hit (List.not_mem_nil it), List.Pairwise.nil⟩
  | succ fuel ih =>
    intro s
    rcases hz : zeroNext samples s with _ | z
    · have he : lmmAux samples (fuel + 1) s = [] := by rw [lmmAux_succ, hz]
      rw [he]
      exact ⟨fun it hit => absurd hit (List.not_mem_nil it), List.Pairwise.nil⟩
    · rcases hseg : segmentPeak samples s z with _ | item
      · have he : lmmAux samples (fuel + 1) s = [] := by
          rw [lmmAux_succ₂ samples fuel s z hz, hseg]
        rw [he]
        exact ⟨fun it hit => absurd hit (List.not_mem_nil it), List.Pairwise.nil⟩
      · have he : lmmAux samples (fuel + 1) s = item :: lmmAux samples fuel z := by
          rw [lmmAux_succ₂ samples fuel s z hz, hseg]
        obtain ⟨hsz, hzlen, -⟩ := zeroNext_some_spec hz
        obtain ⟨hlo, hhi, hslen, hsval⟩ := segmentPeak_spec hseg
        obtain ⟨ihb, ihp⟩ := ih z
        rw [he]
        constructor
        · intro it hit
          rcases List.mem_cons.mp hit with rfl | hit2
          · exact ⟨hlo, hslen, hsval⟩
          · obtain ⟨h1, h2, h3⟩ := ihb it hit2
            exact ⟨by omega, h2, h3⟩
        · refine List.pairwise_cons.mpr ⟨?_, ihp⟩
          intro b hb
          have := (ihb b hb).1
          omega

/-- The drained iterator on a nonempty slice with no preferred start. -/
theorem lmmRun_none_eq (samples : List ℚ) (hlen : 0 < samples.length) :
    LocalMinMaxIterator.run samples none =
      some (LocalMinMaxIterator.run.lmmStart samples 0 hlen) := by
  unfold LocalMinMaxIterator.run
  exact dif_pos hlen

/-- The drained iterator with an in-bounds preferred start index. -/
theorem lmmRun_some_eq (samples : List ℚ) (s1 : ℕ)
    (hlen : s1 < samples.length) :
    LocalMinMaxIterator.run samples (some s1) =
      some (LocalMinMaxIterator.run.lmmStart samples s1 hlen) := by
  unfold LocalMinMaxIterator.run
  exact dif_pos hlen

/-- Specification of the initialised, drained iterator: every item is
(weakly) beyond the start index, equal to the start only when the signal is
exactly zero there, and the item indices are strictly increasing. -/
theorem lmmStart_spec (samples : List ℚ) (start : ℕ)
    (hs : start < samples.length) :
    (∀ it ∈ LocalMinMaxIterator.run.lmmStart samples start hs,
      it.1 < samples.length ∧ samples[it.1]? = some it.2 ∧
      (start ≤ it.1 ∧ (it.1 = start → samples[start]? = some 0))) ∧
    List.Pairwise (fun a b => a.1 < b.1)
      (LocalMinMaxIterator.run.lmmStart samples start hs) := by
  unfold LocalMinMaxIterator.run.lmmStart
  split_ifs with hzero
  · obtain ⟨hb, hp⟩ := lmmAux_spec samples (samples.length - start) start
    refine ⟨fun it hit => ?_, hp⟩
    obtain ⟨h1, h2, h3⟩ := hb it hit
    refine ⟨h2, h3, h1, fun _ => List.getElem?_eq_some_iff.mpr ⟨hs, ?_⟩⟩
    exact hzero
  · split
    · next z hz =>
      obtain ⟨hsz, hzlen, -⟩ := zeroNext_some_spec hz
      obtain ⟨hb, hp⟩ := lmmAux_spec samples (samples.length - z) z
      refine ⟨fun it hit => ?_, hp⟩
      obtain ⟨h1, h2, h3⟩ := hb it hit
      exact ⟨h2, h3, by omega, fun heq => absurd heq (by omega)⟩
    · exact ⟨fun it hit => absurd hit (List.not_mem_nil it), List.Pairwise.nil⟩

/-- Specification of the whole segmenter run: item values are the samples at
their (strictly increasing) indices, and with a preferred start index every
item lies at or beyond it, at it only if the sample there is zero. -/
theorem lmmRun_spec {samples : List ℚ} {pref : Option ℕ}
    {items : List (ℕ × ℚ)}
    (h : LocalMinMaxIterator.run samples pref = some items) :
    (∀ it ∈ items,
      it.1 < samples.length ∧ samples[it.1]? = some it.2 ∧
      ∀ s1, pref = some s1 → s1 ≤ it.1 ∧ (it.1 = s1 → samples[s1]? = some 0)) ∧
    List.Pairwise (fun a b => a.1 < b.1) items := by
  rcases pref with _ | s1
  · by_cases hlen : 0 < samples.length
    · rw [lmmRun_none_eq samples hlen] at h
      obtain rfl := Option.some.inj h
      obtain ⟨hb, hp⟩ := lmmStart_spec samples 0 hlen
      refine ⟨fun it hit => ?_, hp⟩
      obtain ⟨h1, h2, -⟩ := hb it hit
      exact ⟨h1, h2, fun s1 hs1 => Option.noConfusion hs1⟩
    · exfalso
      have hnone : LocalMinMaxIterator.run samples none = none := by
        unfold LocalMinMaxIterator.run
        exact dif_neg hlen
      rw [hnone] at h
      exact Option.noConfusion h
  · by_cases hlen : s1 < samples.length
    · rw [lmmRun_some_eq samples s1 hlen] at h
      obtain rfl := Option.some.inj h
      obtain ⟨hb, hp⟩ := lmmStart_spec samples s1 hlen
      refine ⟨fun it hit => ?_, hp⟩
      obtain ⟨h1, h2, h3⟩ := hb it hit
      refine ⟨h1, h2, fun s2 hs2 => ?_⟩
      obtain rfl := Option.some.inj hs2
      exact ⟨h3.1, h3.2⟩
    · exfalso
      have hnone : LocalMinMaxIterator.run samples (some s1) = none := by
        unfold LocalMinMaxIterator.run
        exact dif_neg hlen
      rw [hnone] at h
      exact Option.noConfusion h

end StreamMonotonicity

section PeakStreamSpec

/-- Positional specification of `optionSeq`: on success the output has the
same length and holds exactly the unwrapped values, position by position. -/
theorem optionSeq_getElem {α : Type} {l : List (Option α)} {xs : List α}
    (h : optionSeq l = some xs) :
    xs.length = l.length ∧
      ∀ k (hk : k < l.length) (hk2 : k < xs.length),
        l.get ⟨k, hk⟩ = some (xs.get ⟨k, hk2⟩) := by
  induction l generalizing xs with
  | nil =>
    unfold optionSeq at h
    cases h
    exact ⟨rfl, fun k hk => absurd hk (Nat.not_lt_zero k)⟩
  | cons o rest ih =>
    cases o with
    | none => exact Option.noConfusion h
    | some a =>
      unfold optionSeq at h
      rw [Option.map_eq_some'] at h
      obtain ⟨ys, hys, rfl⟩ := h
      obtain ⟨hlen, hget⟩ := ih hys
      refine ⟨by simp [hlen], ?_⟩
      intro k hk hk2
      cases k with
      | zero => rfl
      | succ k =>
        simp only [List.length_cons, Nat.succ_lt_succ_iff] at hk hk2
        exact hget k hk hk2

/-- Success characterisation of `AudioHistoryMeta::time_of_sample`: the index
is inside the current window and the returned time is the source formula. -/
theorem time_of_sample_eq {m : AudioHistoryMeta} {index : ℕ} {t : ℚ}
    (h : m.time_of_sample index = some t) :
    index < m.len ∧ 0 < m.amount_total_consumed_samples ∧
      t = m.total_relative_time -
        m.time_per_sample * ((m.len - index - 1 : ℕ) : ℚ) := by
  unfold AudioHistoryMeta.time_of_sample at h
  dsimp only at h
  split_ifs at h with h1 h2 h3 h4
  · simp only [Option.some.injEq] at h
    exact ⟨h3, h2, h.symm⟩

/-- Success characterisation of `Peak::new`: the produced `Peak` keeps the
sample index and ordinal, rounds the value, and stamps the rounded
`time_of_sample` formula; success implies the index is in the window. -/
theorem peak_new_eq {sample_index : ℕ} {value : ℚ} {peak_number : ℕ}
    {meta : AudioHistoryMeta} {p : Peak}
    (h : Peak.new sample_index value peak_number meta = some p) :
    p.sample_index = sample_index ∧ p.peak_number = peak_number ∧
      p.value = roundTo3 value ∧ sample_index < meta.len ∧
      0 < meta.amount_total_consumed_samples ∧
      p.relative_time = roundTo3 (meta.total_relative_time -
        meta.time_per_sample * ((meta.len - sample_index - 1 : ℕ) : ℚ)) := by
  unfold Peak.new at h
  rw [Option.map_eq_some'] at h
  obtain ⟨t, ht, hpeq⟩ := h
  obtain ⟨hlt, htot, hteq⟩ := time_of_sample_eq ht
  subst hpeq
  exact ⟨rfl, rfl, rfl, hlt, htot, by rw [hteq]⟩

/-- Full specification of `PeakDetector::detect_peaks`: every returned peak
sits strictly beyond the preferred start index, inside the current window,
and is stamped with the rounded source-time formula; `peak_number` equals the
peak's position in the output, and sample indices are strictly increasing. -/
theorem detect_peaks_spec {samples : List ℚ} {meta : AudioHistoryMeta}
    {pref : Option ℕ} {ps : List Peak}
    (h : PeakDetector.detect_peaks samples meta pref = some ps) :
    (∀ p ∈ ps,
      (∀ s1, pref = some s1 → s1 < p.sample_index) ∧
      p.sample_index < meta.len ∧
      p.relative_time = roundTo3 (meta.total_relative_time -
        meta.time_per_sample * ((meta.len - p.sample_index - 1 : ℕ) : ℚ))) ∧
    (∀ k (hk : k < ps.length), (ps.get ⟨k, hk⟩).peak_number = k) ∧
    List.Pairwise (fun a b => a.sample_index < b.sample_index) ps := by
  unfold PeakDetector.detect_peaks at h
  rw [Option.bind_eq_some] at h
  obtain ⟨lmms, hrun, hseq⟩ := h
  obtain ⟨hlen, hget⟩ := optionSeq_getElem hseq
  obtain ⟨hrb, hrp⟩ := lmmRun_spec hrun
  have hlenF : ps.length =
      (lmms.filter fun im => decide (MINIMUM_PEAK ≤ |im.2|)).length := by
    rw [hlen, List.length_map, List.enum_length]
  have hkey : ∀ k (hk : k < ps.length)
      (hk2 : k < (lmms.filter fun im => decide (MINIMUM_PEAK ≤ |im.2|)).length),
      Peak.new ((lmms.filter fun im => decide (MINIMUM_PEAK ≤ |im.2|))[k]).1
        ((lmms.filter fun im => decide (MINIMUM_PEAK ≤ |im.2|))[k]).2 k meta =
        some (ps.get ⟨k, hk⟩) := by
    intro k hk hk2
    have hk1 : k < ((lmms.filter fun im =>
        decide (MINIMUM_PEAK ≤ |im.2|)).enum.map
        fun nim => Peak.new nim.2.1 nim.2.2 nim.1 meta).length := by
      rw [← hlen]; exact hk
    have h5 := hget k hk1 hk
    rw [List.get_eq_getElem, List.getElem_map, List.getElem_enum] at h5
    exact h5
  constructor
  · intro p hp
    obtain ⟨k, hpk⟩ := List.mem_iff_get.mp hp
    have hkF : k.1 < (lmms.filter fun im =>
        decide (MINIMUM_PEAK ≤ |im.2|)).length := by
      have := k.2; omega
    obtain ⟨hsi, hnum, hval, hwin, htot, htime⟩ :=
      peak_new_eq (hkey k.1 k.2 hkF)
    rw [hpk] at hsi hnum hval htime
    have hFmem := List.getElem_mem hkF
    have hFmem2 := (List.mem_filter.mp hFmem).1
    have hFcond := (List.mem_filter.mp hFmem).2
    rw [decide_eq_true_eq] at hFcond
    obtain ⟨hblt, hbval, hbpref⟩ := hrb _ hFmem2
    refine ⟨?_, by rw [hsi]; exact hwin, by rw [← hsi] at htime; exact htime⟩
    intro s1 hs1
    obtain ⟨hle, hzero⟩ := hbpref s1 hs1
    rcases Nat.lt_or_ge s1 p.sample_index with hlt | hge
    · exact hlt
    · exfalso
      have heq : ((lmms.filter fun im =>
          decide (MINIMUM_PEAK ≤ |im.2|))[k.1]).1 = s1 := by omega
      have h0 := hzero heq
      rw [heq] at hbval
      rw [hbval] at h0
      have hv0 : ((lmms.filter fun im =>
          decide (MINIMUM_PEAK ≤ |im.2|))[k.1]).2 = 0 :=
        Option.some.inj h0
      rw [hv0] at hFcond
      norm_num [MINIMUM_PEAK] at hFcond
  · constructor
    · intro k hk
      obtain ⟨-, hnum, -⟩ := peak_new_eq (hkey k hk (by omega))
      exact hnum
    · rw [List.pairwise_iff_getElem]
      intro i j hi hj hij
      have hFi : i < (lmms.filter fun im =>
          decide (MINIMUM_PEAK ≤ |im.2|)).length := by omega
      have hFj : j < (lmms.filter fun im =>
          decide (MINIMUM_PEAK ≤ |im.2|)).length := by omega
      obtain ⟨hsi, -⟩ := peak_new_eq (hkey i hi hFi)
      obtain ⟨hsj, -⟩ := peak_new_eq (hkey j hj hFj)
      have hsub : List.Sublist
          (lmms.filter fun im => decide (MINIMUM_PEAK ≤ |im.2|)) lmms :=
        List.filter_sublist lmms
      have hFpair := List.Pairwise.sublist hsub hrp
      rw [List.pairwise_iff_getElem] at hFpair
      have h6 := hFpair i j hFi hFj hij
      rw [List.get_eq_getElem] at hsi hsj
      rw [hsi, hsj]
      exact h6

end PeakStreamSpec

section TraceSemantics

open AudioHistoryMeta

/-- The absolute time of the sample at stream-global position `g` (the
`g`-th sample ever consumed, counting from 0) for sample distance `Δ`:
`Δ · (g + 1)`, matching `time_of_sample`'s anchoring of the newest sample at
`total_relative_time`. -/
def gTime (Δ : ℚ) (g : ℕ) : ℚ := Δ * ((g : ℚ) + 1)

/-- `gTime` is strictly monotone in the position for positive `Δ`. -/
theorem gTime_lt {Δ : ℚ} (hΔ : 0 < Δ) {g1 g2 : ℕ} (h : g1 < g2) :
    gTime Δ g1 < gTime Δ g2 := by
  unfold gTime
  have hc : (g1 : ℚ) < (g2 : ℚ) := by exact_mod_cast h
  have := mul_lt_mul_of_pos_left (show (g1 : ℚ) + 1 < (g2 : ℚ) + 1 by linarith) hΔ
  exact this

/-- `gTime` is monotone in the position for positive `Δ`. -/
theorem gTime_le {Δ : ℚ} (hΔ : 0 < Δ) {g1 g2 : ℕ} (h : g1 ≤ g2) :
    gTime Δ g1 ≤ gTime Δ g2 := by
  rcases Nat.lt_or_ge g1 g2 with hlt | hge
  · exact le_of_lt (gTime_lt hΔ hlt)
  · have : g1 = g2 := by omega
    rw [this]

/-- The window length never exceeds the total consumed count. -/
theorem len_le_total (m : AudioHistoryMeta) :
    m.len ≤ m.amount_total_consumed_samples := by
  rw [len_eq_min]; omega

/-- The eviction count recorded by an `update` is exactly the growth of the
cumulative eviction count. -/
theorem cumEvict_update (m : AudioHistoryMeta) (n : ℕ) :
    (m.update n).cumEvict =
      m.cumEvict + (m.update n).amount_outfaded_elements := by
  unfold AudioHistoryMeta.cumEvict
  rw [len_eq_min (m.update n), update_total, update_capacity, update_outfaded,
    len_eq_min m]
  split_ifs <;> omega

/-- The cumulative eviction count never decreases under `update`. -/
theorem cumEvict_mono (m : AudioHistoryMeta) (n : ℕ) :
    m.cumEvict ≤ (m.update n).cumEvict := by
  rw [cumEvict_update]; omega

/-- A surviving index translated by `calc_index_after_update` denotes the
same stream-global sample position as the stored index did before the
update. -/
theorem calc_some_global (m : AudioHistoryMeta) (n s i2 : ℕ)
    (h : (m.update n).calc_index_after_update s = some (some i2)) :
    (m.update n).cumEvict + i2 = m.cumEvict + s ∧ i2 < (m.update n).len := by
  rw [calc_index_eq] at h
  split_ifs at h with h1 h2
  · exact Option.noConfusion (Option.some.inj h)
  · have h3 := Option.some.inj (Option.some.inj h)
    rw [cumEvict_update]
    exact ⟨by omega, by rw [← h3]; exact h2⟩

/-- An index that `calc_index_after_update` reports as faded out denoted a
stream-global position strictly below the new cumulative eviction count. -/
theorem calc_none_global (m : AudioHistoryMeta) (n s : ℕ)
    (h : (m.update n).calc_index_after_update s = some none) :
    m.cumEvict + s < (m.update n).cumEvict := by
  rw [calc_index_eq] at h
  split_ifs at h with h1 h2
  · rw [cumEvict_update]; omega
  · exact Option.noConfusion (Option.some.inj h)

/-- After any `update` the recomputed total relative time is the total
consumed count times the sample distance. -/
theorem update_trt (m : AudioHistoryMeta) (n : ℕ) :
    (m.update n).total_relative_time =
      (((m.update n).amount_total_consumed_samples : ℕ) : ℚ) *
        (m.update n).time_per_sample := rfl

/-- The `time_of_sample` formula of a window index equals the absolute time
of its stream-global position. -/
theorem time_formula_as_gTime (m : AudioHistoryMeta) (idx : ℕ)
    (hidx : idx < m.len)
    (htrt : m.total_relative_time =
      ((m.amount_total_consumed_samples : ℕ) : ℚ) * m.time_per_sample) :
    m.total_relative_time - m.time_per_sample * ((m.len - idx - 1 : ℕ) : ℚ) =
      gTime m.time_per_sample (m.cumEvict + idx) := by
  unfold gTime AudioHistoryMeta.cumEvict
  have hle : m.len ≤ m.amount_total_consumed_samples := len_le_total m
  have h1 : ((m.len - idx - 1 : ℕ) : ℚ) =
      (m.len : ℚ) - (idx : ℚ) - 1 := by
    have he : m.len - idx - 1 = m.len - (idx + 1) := by omega
    rw [he, Nat.cast_sub (by omega)]
    push_cast
    ring
  have h2 : ((m.amount_total_consumed_samples - m.len + idx : ℕ) : ℚ) =
      (m.amount_total_consumed_samples : ℚ) - (m.len : ℚ) + (idx : ℚ) := by
    rw [Nat.cast_add, Nat.cast_sub hle]
  rw [h1, h2, htrt]
  ring

/-- The result of `find_max_abs` is one of the peaks. -/
theorem find_max_abs_mem {peaks : List Peak} {mx : Peak}
    (h : find_max_abs peaks = some mx) : mx ∈ peaks := by
  unfold find_max_abs at h
  suffices haux : ∀ (l : List Peak) (acc : Option Peak) (mm : Peak),
      l.foldl
        (fun acc p =>
          match acc with
          | none => some p
          | some m => if m.abs_value < p.abs_value then some p else some m)
        acc = some mm → acc = some mm ∨ mm ∈ l by
    rcases haux peaks none mx h with hacc | hm
    · exact Option.noConfusion hacc
    · exact hm
  intro l
  induction l with
  | nil =>
    intro acc mm h2
    exact Or.inl h2
  | cons p rest ih =>
    intro acc mm h2
    simp only [List.foldl_cons] at h2
    rcases ih _ mm h2 with hacc | hm
    · rcases acc with _ | a
      · right
        have h3 : p = mm := Option.some.inj hacc
        rw [← h3]
        exact List.mem_cons_self _ _
      · have h4 : (if a.abs_value < p.abs_value then some p else some a) =
            some mm := hacc
        by_cases hc : a.abs_value < p.abs_value
        · right
          rw [if_pos hc] at h4
          rw [← Option.some.inj h4]
          exact List.mem_cons_self _ _
        · left
          rw [if_neg hc] at h4
          exact h4
    · exact Or.inr (List.mem_cons_of_mem _ hm)

/-- A member of a `take` prefix sits at a position below the cut. -/
theorem mem_take_pos {α : Type} {l : List α} {m : ℕ} {b : α}
    (h : b ∈ l.take m) :
    ∃ kb, ∃ hkb : kb < l.length, kb < m ∧ l.get ⟨kb, hkb⟩ = b := by
  obtain ⟨k, hk⟩ := List.getElem?_of_mem h
  have hlt : k < (l.take m).length := (List.getElem?_eq_some_iff.mp hk).1
  rw [List.length_take] at hlt
  rw [List.getElem?_take_of_lt (by omega)] at hk
  have hkl : k < l.length := (List.getElem?_eq_some_iff.mp hk).1
  refine ⟨k, hkl, by omega, ?_⟩
  rw [List.get_eq_getElem]
  exact (List.getElem?_eq_some_iff.mp hk).2

/-- The backward search looks only at peaks strictly before the maximum: its
result is a member of the prefix of the first `peak_number`-many peaks. -/
theorem find_envelope_begin_mem_take {peaks : List Peak} {mx b : Peak}
    (h : find_envelope_begin peaks mx = some b) :
    b ∈ peaks.take mx.peak_number := by
  unfold find_envelope_begin at h
  have h1 := List.mem_of_find?_eq_some h
  have h3 : b ∈ peaks.reverse.drop (peaks.length - mx.peak_number) :=
    List.mem_of_mem_take h1
  rw [← List.reverse_take] at h3
  exact List.mem_reverse.mp h3

/-- The forward search looks only at peaks strictly after the maximum: its
result sits at a position strictly beyond `peak_number`. -/
theorem find_envelope_end_pos {peaks : List Peak} {mx e : Peak}
    (h : find_envelope_end peaks mx = some e) :
    ∃ ke, ∃ hke : ke < peaks.length,
      mx.peak_number < ke ∧ peaks.get ⟨ke, hke⟩ = e := by
  unfold find_envelope_end at h
  split at h
  · exact Option.noConfusion h
  · rw [Option.map_eq_some'] at h
    obtain ⟨cn, hcn, hfst⟩ := h
    have hmem : cn ∈ (((peaks.zip peaks.tail).drop
        (mx.peak_number + 1)).dropWhile
        (fun cn => ! peakSmallEnoughB mx cn.1)).dropWhile
        (fun cn => Peak.geB cn.1 cn.2 && ! Peak.beqB cn.2 _) :=
      List.mem_of_mem_head? (by rw [hcn]; rfl)
    have hmem2 : cn ∈ (peaks.zip peaks.tail).drop (mx.peak_number + 1) :=
      List.dropWhile_subset _ (List.dropWhile_subset _ hmem)
    obtain ⟨j, hj⟩ := List.getElem?_of_mem hmem2
    rw [List.getElem?_drop, List.getElem?_zip_eq_some] at hj
    obtain ⟨hj1, hj2⟩ := hj
    refine ⟨mx.peak_number + 1 + j, (List.getElem?_eq_some_iff.mp hj1).1,
      by omega, ?_⟩
    rw [List.get_eq_getElem, ← hfst]
    exact (List.getElem?_eq_some_iff.mp hj1).2

/-- Per-call specification of `EnvelopeDetector::detect_envelope`: the
stored index is translated through `calc_index_after_update` (or stays
absent), and when an envelope is produced, its begin peak precedes its end
peak in the window, both carry the rounded `time_of_sample` stamp of their
window index, the begin sits strictly beyond the translated start index, and
the end's window index becomes the new stored state. -/
theorem detect_envelope_call_spec {st : EnvelopeDetector}
    {meta : AudioHistoryMeta} {samples : List ℚ}
    {r : Option Envelope × EnvelopeDetector}
    (h : st.detect_envelope meta samples = some r) :
    ∃ startIdx : Option ℕ,
      (match st.previous_envelope_end_peak_index with
       | none => startIdx = none
       | some s0 => meta.calc_index_after_update s0 = some startIdx) ∧
      (match r.1 with
       | none => r.2 = ⟨startIdx⟩
       | some env =>
         r.2 = ⟨some env.end_.sample_index⟩ ∧
         env.begin_.sample_index < env.end_.sample_index ∧
         env.end_.sample_index < meta.len ∧
         (∀ s1, startIdx = some s1 → s1 < env.begin_.sample_index) ∧
         env.begin_.relative_time = roundTo3 (meta.total_relative_time -
           meta.time_per_sample *
             ((meta.len - env.begin_.sample_index - 1 : ℕ) : ℚ)) ∧
         env.end_.relative_time = roundTo3 (meta.total_relative_time -
           meta.time_per_sample *
             ((meta.len - env.end_.sample_index - 1 : ℕ) : ℚ))) := by
  unfold EnvelopeDetector.detect_envelope at h
  rw [Option.bind_eq_some] at h
  obtain ⟨start, hstart, h⟩ := h
  rw [Option.bind_eq_some] at h
  obtain ⟨peaks, hpeaks, h⟩ := h
  refine ⟨start, ?_, ?_⟩
  · rcases hprev : st.previous_envelope_end_peak_index with _ | s0
    · rw [hprev] at hstart
      exact (Option.some.inj hstart).symm
    · rw [hprev] at hstart
      exact hstart
  · obtain ⟨hmemf, hnum, hpair⟩ := detect_peaks_spec hpeaks
    split at h
    · rw [← Option.some.inj h]
    · rename_i max_peak hmax
      split at h
      · rw [← Option.some.inj h]
      · rename_i b hbeg
        split at h
        · rw [← Option.some.inj h]
        · rename_i e hend
          rw [Option.map_eq_some'] at h
          obtain ⟨env, henv, heq⟩ := h
          rw [← heq]
          unfold Envelope.new at henv
          split at henv
          · rename_i hord
            cases henv
            dsimp only
            obtain ⟨kb, hkb, hkbm, hkbeq⟩ :=
              mem_take_pos (find_envelope_begin_mem_take hbeg)
            obtain ⟨ke, hke, hkem, hkeeq⟩ := find_envelope_end_pos hend
            have hkbke : kb < ke := by omega
            have hpg := List.pairwise_iff_getElem.mp hpair kb ke hkb hke hkbke
            rw [List.get_eq_getElem] at hkbeq hkeeq
            rw [hkbeq, hkeeq] at hpg
            have hbmem : b ∈ peaks := by
              rw [← hkbeq]; exact List.getElem_mem hkb
            have hemem : e ∈ peaks := by
              rw [← hkeeq]; exact List.getElem_mem hke
            obtain ⟨hbpref, hbwin, hbtime⟩ := hmemf b hbmem
            obtain ⟨hepref, hewin, hetime⟩ := hmemf e hemem
            exact ⟨rfl, hpg, hewin, hbpref, hbtime, hetime⟩
          · exact Option.noConfusion henv

/-- The driver loop around `EnvelopeDetector::detect_envelope`, as
`BeatDetector::on_new_audio` / `BandAnalyzer::detect_envelope` invoke it on
successive chunks of one stream: each call first applies
`AudioHistoryMeta::update` with the chunk length, then hands the detector
the current window contents and threads the returned detector state.  The
trace collects every call's optional envelope; any panic aborts the trace. -/
def runDetector (meta : AudioHistoryMeta) (st : EnvelopeDetector) :
    List (ℕ × List ℚ) → Option (List (Option Envelope))
  | [] => some []
  | c :: rest =>
    (st.detect_envelope (meta.update c.1) c.2).bind fun r =>
      (runDetector (meta.update c.1) r.2 rest).map fun res2 => r.1 :: res2

/-- Unfolding equation of `runDetector` on a nonempty call list. -/
theorem runDetector_cons (meta : AudioHistoryMeta) (st : EnvelopeDetector)
    (c : ℕ × List ℚ) (rest : List (ℕ × List ℚ)) :
    runDetector meta st (c :: rest) =
      (st.detect_envelope (meta.update c.1) c.2).bind fun r =>
        (runDetector (meta.update c.1) r.2 rest).map fun res2 =>
          r.1 :: res2 := rfl

/-- Every bound value held in `b` lies strictly below `t`. -/
def optLT (b : Option ℚ) (t : ℚ) : Prop := ∀ bv, b = some bv → bv < t

/-- Trace invariant tying a running lower bound to the detector state: a
stored window index dominates the bound through its absolute sample time,
and an absent stored index keeps the bound strictly below the absolute time
of every sample still to come. -/
def BoundOk (meta : AudioHistoryMeta) (st : EnvelopeDetector)
    (b : Option ℚ) : Prop :=
  match b with
  | none => True
  | some bv =>
    match st.previous_envelope_end_peak_index with
    | some s => bv ≤ gTime meta.time_per_sample (meta.cumEvict + s)
    | none => bv < gTime meta.time_per_sample meta.cumEvict

/-- Main trace lemma: along any successful `runDetector` trace, every
produced envelope spans an interval of absolute sample times `(τb, τe)`
strictly above the running bound, its stored rounded times are the roundings
of those absolute times, and the absolute times of any two envelopes from
distinct calls are strictly ordered (earlier end before later begin). -/
theorem runDetector_spec (calls : List (ℕ × List ℚ)) :
    ∀ (meta : AudioHistoryMeta) (st : EnvelopeDetector) (b : Option ℚ)
      (res : List (Option Envelope)),
      0 < meta.time_per_sample →
      BoundOk meta st b →
      runDetector meta st calls = some res →
      ((∀ (j : ℕ) (envj : Envelope), res[j]? = some (some envj) →
        ∃ τb τe : ℚ, optLT b τb ∧ τb < τe ∧
          envj.begin_.relative_time = roundTo3 τb ∧
          envj.end_.relative_time = roundTo3 τe) ∧
       (∀ (i j : ℕ) (envi envj : Envelope), i < j →
        res[i]? = some (some envi) → res[j]? = some (some envj) →
        ∃ ti tj : ℚ, ti < tj ∧ envi.end_.relative_time = roundTo3 ti ∧
          envj.begin_.relative_time = roundTo3 tj)) := by
  induction calls with
  | nil =>
    intro meta st b res hΔ hb hrun
    have hres : res = [] := (Option.some.inj hrun).symm
    subst hres
    constructor
    · intro j envj hj
      rw [List.getElem?_nil] at hj
      exact Option.noConfusion hj
    · intro i j envi envj hij hi hj
      rw [List.getElem?_nil] at hi
      exact Option.noConfusion hi
  | cons c rest ih =>
    intro meta st b res hΔ hb hrun
    rw [runDetector_cons, Option.bind_eq_some] at hrun
    obtain ⟨r, hcall, hrun⟩ := hrun
    rw [Option.map_eq_some'] at hrun
    obtain ⟨res2, hrun2, hres⟩ := hrun
    subst hres
    have hΔ2 : 0 < (meta.update c.1).time_per_sample := by
      rw [update_tps]; exact hΔ
    obtain ⟨startIdx, hsrel, hbranch⟩ := detect_envelope_call_spec hcall
    have factA : ∀ s1, startIdx = some s1 → ∀ bv, b = some bv →
        bv ≤ gTime meta.time_per_sample
          ((meta.update c.1).cumEvict + s1) := by
      intro s1 hs1 bv hbv
      rcases hprev : st.previous_envelope_end_peak_index with _ | s0
      · rw [hprev] at hsrel
        have hsrel2 : startIdx = none := hsrel
        rw [hsrel2] at hs1
        exact Option.noConfusion hs1
      · rw [hprev] at hsrel
        have hcalc : (meta.update c.1).calc_index_after_update s0 =
            some startIdx := hsrel
        rw [hs1] at hcalc
        obtain ⟨hglob, hlt⟩ := calc_some_global meta c.1 s0 s1 hcalc
        have hb2 : bv ≤ gTime meta.time_per_sample (meta.cumEvict + s0) := by
          unfold BoundOk at hb
          rw [hbv, hprev] at hb
          exact hb
        rw [← hglob] at hb2
        exact hb2
    have factB : startIdx = none → ∀ bv, b = some bv →
        bv < gTime meta.time_per_sample (meta.update c.1).cumEvict := by
      intro hs1 bv hbv
      rcases hprev : st.previous_envelope_end_peak_index with _ | s0
      · have hb2 : bv < gTime meta.time_per_sample meta.cumEvict := by
          unfold BoundOk at hb
          rw [hbv, hprev] at hb
          exact hb
        exact lt_of_lt_of_le hb2 (gTime_le hΔ (cumEvict_mono meta c.1))
      · rw [hprev] at hsrel
        have hcalc : (meta.update c.1).calc_index_after_update s0 =
            some startIdx := hsrel
        rw [hs1] at hcalc
        have hglob := calc_none_global meta c.1 s0 hcalc
        have hb2 : bv ≤ gTime meta.time_per_sample (meta.cumEvict + s0) := by
          unfold BoundOk at hb
          rw [hbv, hprev] at hb
          exact hb
        exact lt_of_le_of_lt hb2 (gTime_lt hΔ (by omega))
    rcases hr1 : r.1 with _ | env
    · rw [hr1] at hbranch
      have hbok2 : BoundOk (meta.update c.1) r.2 b := by
        unfold BoundOk
        rcases b with _ | bv
        · trivial
        · rw [hbranch]
          rcases hsi : startIdx with _ | s1
          · exact factB hsi bv rfl
          · exact factA s1 hsi bv rfl
      obtain ⟨ih1, ih2⟩ := ih (meta.update c.1) r.2 b res2 hΔ2 hbok2 hrun2
      constructor
      · intro j envj hj
        cases j with
        | zero =>
          rw [List.getElem?_cons_zero] at hj
          exact Option.noConfusion (Option.some.inj hj)
        | succ j =>
          rw [List.getElem?_cons_succ] at hj
          exact ih1 j envj hj
      · intro i j envi envj hij hi hj
        cases i with
        | zero =>
          rw [List.getElem?_cons_zero] at hi
          exact Option.noConfusion (Option.some.inj hi)
        | succ i =>
          cases j with
          | zero => omega
          | succ j =>
            rw [List.getElem?_cons_succ] at hi hj
            exact ih2 i j envi envj (by omega) hi hj
    · rw [hr1] at hbranch
      obtain ⟨hst2, hbe, hewin, hbpref, hbtime, hetime⟩ := hbranch
      have hconvb := time_formula_as_gTime (meta.update c.1)
        env.begin_.sample_index (by omega) (update_trt meta c.1)
      have hconve := time_formula_as_gTime (meta.update c.1)
        env.end_.sample_index hewin (update_trt meta c.1)
      rw [hconvb, update_tps] at hbtime
      rw [hconve, update_tps] at hetime
      have hoptb : optLT b (gTime meta.time_per_sample
          ((meta.update c.1).cumEvict + env.begin_.sample_index)) := by
        intro bv hbv
        rcases hsi : startIdx with _ | s1
        · exact lt_of_lt_of_le (factB hsi bv hbv) (gTime_le hΔ (by omega))
        · exact lt_of_le_of_lt (factA s1 hsi bv hbv)
            (gTime_lt hΔ (by have := hbpref s1 hsi; omega))
      have hopte : optLT b (gTime meta.time_per_sample
          ((meta.update c.1).cumEvict + env.end_.sample_index)) := by
        intro bv hbv
        rcases hsi : startIdx with _ | s1
        · exact lt_of_lt_of_le (factB hsi bv hbv) (gTime_le hΔ (by omega))
        · exact lt_of_le_of_lt (factA s1 hsi bv hbv)
            (gTime_lt hΔ (by have := hbpref s1 hsi; omega))
      have hbok2 : BoundOk (meta.update c.1) r.2
          (some (gTime meta.time_per_sample
            ((meta.update c.1).cumEvict + env.end_.sample_index))) := by
        unfold BoundOk
        rw [hst2]
        exact le_rfl
      obtain ⟨ih1, ih2⟩ := ih (meta.update c.1) r.2
        (some (gTime meta.time_per_sample
          ((meta.update c.1).cumEvict + env.end_.sample_index)))
        res2 hΔ2 hbok2 hrun2
      constructor
      · intro j envj hj
        cases j with
        | zero =>
          rw [List.getElem?_cons_zero] at hj
          have henv : env = envj := Option.some.inj (Option.some.inj hj)
          subst henv
          exact ⟨gTime meta.time_per_sample
              ((meta.update c.1).cumEvict + env.begin_.sample_index),
            gTime meta.time_per_sample
              ((meta.update c.1).cumEvict + env.end_.sample_index),
            hoptb, gTime_lt hΔ (by omega), hbtime, hetime⟩
        | succ j =>
          rw [List.getElem?_cons_succ] at hj
          obtain ⟨τb, τe, hopt2, hlt2, hb2, he2⟩ := ih1 j envj hj
          refine ⟨τb, τe, ?_, hlt2, hb2, he2⟩
          intro bv hbv
          exact lt_trans (hopte bv hbv) (hopt2 _ rfl)
      · intro i j envi envj hij hi hj
        cases i with
        | zero =>
          rw [List.getElem?_cons_zero] at hi
          have henv : env = envi := Option.some.inj (Option.some.inj hi)
          subst henv
          cases j with
          | zero => omega
          | succ j =>
            rw [List.getElem?_cons_succ] at hj
            obtain ⟨τb, τe, hopt2, hlt2, hb2, he2⟩ := ih1 j envj hj
            exact ⟨gTime meta.time_per_sample
                ((meta.update c.1).cumEvict + env.end_.sample_index),
              τb, hopt2 _ rfl, hetime, hb2⟩
        | succ i =>
          cases j with
          | zero => omega
          | succ j =>
            rw [List.getElem?_cons_succ] at hi hj
            exact ih2 i j envi envj (by omega) hi hj

end TraceSemantics

section StreamClaims

open AudioHistoryMeta

/-- C1 (amended): along any successful multi-call trace of the
envelope-detection pipeline on one detector instance (each call updating the
shared sample history with its chunk length and threading the detector
state), any two envelopes produced by distinct calls occupy strictly
increasing absolute stream times: the earlier envelope's end peak lies at a
strictly earlier absolute (pre-rounding) sample time than the later
envelope's begin peak, so the same physical beat is never reported twice,
and consequently the reported rounded times never decrease across calls
(later begin ≥ earlier end).  The spec's stronger claim that a later
envelope *begins strictly after* the earlier end does not hold for the
reported rounded times: rounding to whole milliseconds can make them equal
(`claim_C1_counterexample`). -/
theorem claim_C1 (cap : ℕ) (rate : ℚ) (hrate : 0 < rate)
    (calls : List (ℕ × List ℚ)) (res : List (Option Envelope))
    (hrun : runDetector (AudioHistoryMeta.new cap rate)
      EnvelopeDetector.new calls = some res)
    (i j : ℕ) (hij : i < j) (envi envj : Envelope)
    (hi : res[i]? = some (some envi)) (hj : res[j]? = some (some envj)) :
    (∃ ti tj : ℚ, ti < tj ∧ envi.end_.relative_time = roundTo3 ti ∧
      envj.begin_.relative_time = roundTo3 tj) ∧
    envi.end_.relative_time ≤ envj.begin_.relative_time := by
  have hΔ : 0 < (AudioHistoryMeta.new cap rate).time_per_sample := by
    show 0 < 1 / rate
    positivity
  obtain ⟨-, h2⟩ := runDetector_spec calls (AudioHistoryMeta.new cap rate)
    EnvelopeDetector.new none res hΔ trivial hrun
  obtain ⟨ti, tj, hlt, hei, hbj⟩ := h2 i j envi envj hij hi hj
  refine ⟨⟨ti, tj, hlt, hei, hbj⟩, ?_⟩
  rw [hei, hbj]
  exact roundTo3_mono (le_of_lt hlt)

/-- First chunk of the C1 counterexample stream (sampling rate 2048 Hz). -/
def c1chunkA : List ℚ :=
  [0, 1/8, -1/4, -1/4, -1/4, -7/8, -1/4, 1/8, -1/4, -1/16, 1/32, 1/32]

/-- Second chunk of the C1 counterexample stream. -/
def c1chunkB : List ℚ :=
  [1/32, -1/16, -7/8, -1/4, 1/8, -1/16, 1/16, 1/32]

/-- Envelope returned by the first call: begin at window index 1 (1 ms),
apex at index 5, end at index 7 (rounded to 4 ms). -/
def c1env1 : Envelope :=
  ⟨⟨1/1000, 1, 1/8, 0⟩, ⟨3/1000, 5, -7/8, 1⟩, ⟨1/250, 7, 1/8, 2⟩,
    ⟨7/8⟩, 7, 7⟩

/-- Envelope returned by the second call: begin at window index 8 (also
rounded to 4 ms), apex at index 14, end at index 16 (8 ms). -/
def c1env2 : Envelope :=
  ⟨⟨1/250, 8, -1/4, 0⟩, ⟨7/1000, 14, -7/8, 1⟩, ⟨1/125, 16, 1/8, 2⟩,
    ⟨7/8⟩, 7/2, 7⟩

/-- Counterexample to C1 as stated: a two-call trace in which the second
call's envelope begins at the same reported (rounded) time, 4 ms, at which
the first call's envelope ended — the envelope of a later call does not
begin strictly after the end of the earlier one in reported time. -/
theorem claim_C1_counterexample :
    runDetector (AudioHistoryMeta.new 22500 2048) EnvelopeDetector.new
        [(12, c1chunkA), (8, c1chunkA ++ c1chunkB)] =
      some [some c1env1, some c1env2] ∧
    c1env2.begin_.relative_time = c1env1.end_.relative_time ∧
    ¬ c1env1.end_.relative_time < c1env2.begin_.relative_time := by
  refine ⟨by decide, by decide, by decide⟩

/-- Witness for C1 at the concrete two-call trace: the amended theorem
applies and produces the ordering facts for the two envelopes. -/
theorem claim_C1_witness :
    (0 : ℚ) < 2048 ∧
    ((∃ ti tj : ℚ, ti < tj ∧ c1env1.end_.relative_time = roundTo3 ti ∧
        c1env2.begin_.relative_time = roundTo3 tj) ∧
      c1env1.end_.relative_time ≤ c1env2.begin_.relative_time) :=
  ⟨by norm_num,
    claim_C1 22500 2048 (by norm_num)
      [(12, c1chunkA), (8, c1chunkA ++ c1chunkB)]
      [some c1env1, some c1env2] (by decide) 0 1 (by omega) c1env1 c1env2
      (by decide) (by decide)⟩

end StreamClaims

end BeatDetection
